import Mathlib

/-!
Verification of the ShmitWare data codec: memory math, raw bit transfer,
the Field/BitField/ConstBitField/Packet algebra with its recursive
encoder/decoder, and the Ingress/Egress session adapters.

Buffers and object representations are modelled as lists of byte values
(`List Nat`, each element < 256).  The C++ size_t arithmetic never comes
close to overflow in any reachable configuration (the codec guards cap all
cursor/size arithmetic by the buffer size), so sizes and cursors are
modelled as `Nat`.  Where the C++ uses bitwise idioms the source itself
documents as arithmetic (`n << 3` for `n * 8`, `n & 0x7` for `n % 8`,
`kBitMasks[k]` for `2^k - 1`, `x << o` for `x * 2^o`), the model uses the
arithmetic form.
-/

namespace ShmitWare

/-! ## Memory math (Core/Math/Memory.hpp) -/

namespace math

/-- `bits_to_contain(num_bytes) = num_bytes << 3`. -/
def bits_to_contain (numBytes : Nat) : Nat := numBytes * 8

/-- `bytes_to_contain(num_bits)`: `num_bits >> 3`, plus one when
`num_bits & 0x7` is nonzero. -/
def bytes_to_contain (numBits : Nat) : Nat :=
  numBits / 8 + (if numBits % 8 ≠ 0 then 1 else 0)

/-- `next_boundary_bit_pos(start) = bits_to_contain(bytes_to_contain(start))`. -/
def next_boundary_bit_pos (startBitPos : Nat) : Nat :=
  bits_to_contain (bytes_to_contain startBitPos)

theorem bytes_to_contain_eq (n : Nat) : bytes_to_contain n = (n + 7) / 8 := by
  unfold bytes_to_contain
  by_cases h : n % 8 = 0 <;> simp [h] <;> omega

theorem next_boundary_eq (n : Nat) :
    next_boundary_bit_pos n = (n + 7) / 8 * 8 := by
  unfold next_boundary_bit_pos bits_to_contain; rw [bytes_to_contain_eq]

theorem le_next_boundary (n : Nat) : n ≤ next_boundary_bit_pos n := by
  rw [next_boundary_eq]; omega

theorem next_boundary_lt_add (n : Nat) : next_boundary_bit_pos n < n + 8 := by
  rw [next_boundary_eq]; omega

theorem dvd_next_boundary (n : Nat) : 8 ∣ next_boundary_bit_pos n := by
  rw [next_boundary_eq]; exact ⟨(n + 7) / 8, Nat.mul_comm _ _⟩

theorem next_boundary_of_dvd {n : Nat} (h : 8 ∣ n) :
    next_boundary_bit_pos n = n := by
  rw [next_boundary_eq]; omega

theorem next_boundary_idem (n : Nat) :
    next_boundary_bit_pos (next_boundary_bit_pos n) = next_boundary_bit_pos n :=
  next_boundary_of_dvd (dvd_next_boundary n)

theorem next_boundary_add_of_dvd {a : Nat} (h : 8 ∣ a) (x : Nat) :
    next_boundary_bit_pos (a + x) = a + next_boundary_bit_pos x := by
  rw [next_boundary_eq, next_boundary_eq]
  obtain ⟨k, rfl⟩ := h
  omega

theorem next_boundary_mono {a b : Nat} (h : a ≤ b) :
    next_boundary_bit_pos a ≤ next_boundary_bit_pos b := by
  rw [next_boundary_eq, next_boundary_eq]
  exact Nat.mul_le_mul_right 8 (Nat.div_le_div_right (by omega))

theorem bytes_to_contain_mul8 (k : Nat) : bytes_to_contain (k * 8) = k := by
  rw [bytes_to_contain_eq]; omega

theorem next_boundary_eq_mul (n : Nat) :
    next_boundary_bit_pos n = bytes_to_contain n * 8 := by
  rw [next_boundary_eq, bytes_to_contain_eq]

theorem bytes_to_contain_next_boundary (n : Nat) :
    bytes_to_contain (next_boundary_bit_pos n) = bytes_to_contain n := by
  rw [next_boundary_eq_mul, bytes_to_contain_mul8]

end math

/-! ## Result envelope (Core/Result.hpp): the `BinaryResult` specialization
carries exactly the two codes `kSucceeded` and `kFailed`. -/

inductive BinaryResult where
  | success : BinaryResult
  | failure : BinaryResult
deriving DecidableEq, Repr

def BinaryResult.IsSuccess : BinaryResult → Bool
  | .success => true
  | .failure => false

def BinaryResult.IsFailure : BinaryResult → Bool
  | .success => false
  | .failure => true

/-! ## Byte-buffer values

A buffer is a list of bytes, least-significant (lowest-address) first.
`bytesToNat` reads the whole buffer as one little-endian number, which is
how the bit-packing proofs track buffer contents. -/

def bytesToNat : List Nat → Nat
  | [] => 0
  | b :: rest => b + 256 * bytesToNat rest

/-- Little-endian object representation of a value stored in a `k`-byte
unsigned integer. -/
def natToBytesLE : Nat → Nat → List Nat
  | 0, _ => []
  | k + 1, v => v % 256 :: natToBytesLE k (v / 256)

def allBytes (l : List Nat) : Prop := ∀ b ∈ l, b < 256

theorem pow256 (k : Nat) : 256 ^ k = 2 ^ (8 * k) := by
  rw [Nat.pow_mul]

theorem bytesToNat_lt {l : List Nat} (h : allBytes l) :
    bytesToNat l < 2 ^ (8 * l.length) := by
  induction l with
  | nil => simp [bytesToNat]
  | cons b rest ih =>
    have hb : b < 256 := h b (by simp)
    have hr := ih (fun x hx => h x (by simp [hx]))
    simp only [bytesToNat, List.length_cons]
    have key : (2 : Nat) ^ (8 * (rest.length + 1)) = 256 * 2 ^ (8 * rest.length) := by
      have h8 : 8 * (rest.length + 1) = 8 + 8 * rest.length := by ring
      rw [h8, Nat.pow_add]
    rw [key]; omega

theorem bytesToNat_append (l1 l2 : List Nat) :
    bytesToNat (l1 ++ l2) = bytesToNat l1 + 2 ^ (8 * l1.length) * bytesToNat l2 := by
  induction l1 with
  | nil => simp [bytesToNat]
  | cons b rest ih =>
    have key : (2 : Nat) ^ (8 * (rest.length + 1)) = 256 * 2 ^ (8 * rest.length) := by
      have h8 : 8 * (rest.length + 1) = 8 + 8 * rest.length := by ring
      rw [h8, Nat.pow_add]
    show b + 256 * bytesToNat (rest ++ l2)
        = b + 256 * bytesToNat rest + 2 ^ (8 * (rest.length + 1)) * bytesToNat l2
    rw [ih, key]
    ring

theorem bytesToNat_replicate_zero (k : Nat) :
    bytesToNat (List.replicate k 0) = 0 := by
  induction k with
  | zero => rfl
  | succ k ih => simp [List.replicate, bytesToNat, ih]

theorem allBytes_replicate_zero (k : Nat) : allBytes (List.replicate k 0) := by
  intro b hb
  have := List.eq_of_mem_replicate hb
  omega

theorem bytesToNat_natToBytesLE (k v : Nat) :
    bytesToNat (natToBytesLE k v) = v % 2 ^ (8 * k) := by
  induction k generalizing v with
  | zero => simp [natToBytesLE, bytesToNat, Nat.mod_one]
  | succ k ih =>
    simp only [natToBytesLE, bytesToNat, ih]
    have h1 : 8 * (k + 1) = 8 + 8 * k := by ring
    rw [h1, Nat.pow_add]
    exact (Nat.mod_mul).symm

theorem allBytes_natToBytesLE (k v : Nat) : allBytes (natToBytesLE k v) := by
  induction k generalizing v with
  | zero => intro b hb; simp [natToBytesLE] at hb
  | succ k ih =>
    intro b hb
    simp only [natToBytesLE, List.mem_cons] at hb
    rcases hb with h | h
    · omega
    · exact ih _ b h

theorem natToBytesLE_length (k v : Nat) : (natToBytesLE k v).length = k := by
  induction k generalizing v with
  | zero => rfl
  | succ k ih => simp [natToBytesLE, ih]

theorem bytesToNat_take {l : List Nat} (h : allBytes l) (k : Nat) :
    bytesToNat (l.take k) = bytesToNat l % 2 ^ (8 * k) := by
  induction l generalizing k with
  | nil => simp [bytesToNat]
  | cons b rest ih =>
    cases k with
    | zero => simp [bytesToNat, List.take, Nat.mod_one]
    | succ k =>
      have hb : b < 256 := h b (by simp)
      have hrest : allBytes rest := fun x hx => h x (by simp [hx])
      have h256 : (2 : Nat) ^ 8 = 256 := by norm_num
      simp only [List.take, bytesToNat, ih hrest k]
      have h1 : 8 * (k + 1) = 8 + 8 * k := by ring
      rw [h1, Nat.pow_add]
      rw [Nat.mod_mul]
      have hbm : (b + 256 * bytesToNat rest) % 2 ^ 8 = b := by
        rw [h256, Nat.add_mul_mod_self_left]
        exact Nat.mod_eq_of_lt hb
      have hbd : (b + 256 * bytesToNat rest) / 2 ^ 8 = bytesToNat rest := by
        rw [h256, Nat.add_mul_div_left _ _ (by norm_num : (0:Nat) < 256)]
        simp [Nat.div_eq_of_lt hb]
      rw [hbm, hbd]

theorem bytesToNat_drop {l : List Nat} (h : allBytes l) (k : Nat) :
    bytesToNat (l.drop k) = bytesToNat l / 2 ^ (8 * k) := by
  induction l generalizing k with
  | nil => simp [bytesToNat]
  | cons b rest ih =>
    cases k with
    | zero => simp
    | succ k =>
      have hb : b < 256 := h b (by simp)
      have hrest : allBytes rest := fun x hx => h x (by simp [hx])
      have h256 : (2 : Nat) ^ 8 = 256 := by norm_num
      simp only [List.drop, bytesToNat, ih hrest k]
      have h1 : 8 * (k + 1) = 8 + 8 * k := by ring
      rw [h1, Nat.pow_add, ← Nat.div_div_eq_div_mul]
      congr 1
      rw [h256, Nat.add_mul_div_left _ _ (by norm_num : (0:Nat) < 256)]
      simp [Nat.div_eq_of_lt hb]

theorem bytesToNat_inj {l1 l2 : List Nat} (h1 : allBytes l1) (h2 : allBytes l2)
    (hlen : l1.length = l2.length) (hval : bytesToNat l1 = bytesToNat l2) :
    l1 = l2 := by
  induction l1 generalizing l2 with
  | nil => cases l2 with
    | nil => rfl
    | cons _ _ => simp at hlen
  | cons b rest ih =>
    cases l2 with
    | nil => simp at hlen
    | cons c rest2 =>
      have hb : b < 256 := h1 b (by simp)
      have hc : c < 256 := h2 c (by simp)
      simp only [bytesToNat] at hval
      have hbc : b = c := by omega
      subst hbc
      have hrest : bytesToNat rest = bytesToNat rest2 := by omega
      have := ih (fun x hx => h1 x (by simp [hx])) (fun x hx => h2 x (by simp [hx]))
        (by simpa using hlen) hrest
      rw [this]

/-- `List.set` written as a take/append/drop decomposition; used to reason
numerically about in-place byte writes. -/
theorem set_eq_take_cons_drop {l : List Nat} {d : Nat} (h : d < l.length) (v : Nat) :
    l.set d v = l.take d ++ v :: l.drop (d + 1) := by
  induction l generalizing d with
  | nil => simp at h
  | cons b rest ih =>
    cases d with
    | zero => simp
    | succ d =>
      simp only [List.set, List.take, List.drop, List.cons_append]
      rw [ih (by simpa using h)]

theorem getD_eq_div_mod {l : List Nat} (h : allBytes l) {d : Nat} (hd : d < l.length) :
    l.getD d 0 = bytesToNat l / 2 ^ (8 * d) % 256 := by
  induction l generalizing d with
  | nil => simp at hd
  | cons b rest ih =>
    have hb : b < 256 := h b (by simp)
    have hrest : allBytes rest := fun x hx => h x (by simp [hx])
    cases d with
    | zero =>
      simp [bytesToNat, Nat.add_mul_mod_self_left, Nat.mod_eq_of_lt hb]
    | succ d =>
      have h256 : (2 : Nat) ^ 8 = 256 := by norm_num
      have h1 : 8 * (d + 1) = 8 + 8 * d := by ring
      simp only [List.getD, List.get?, bytesToNat]
      rw [h1, Nat.pow_add, ← Nat.div_div_eq_div_mul]
      have hdd : (b + 256 * bytesToNat rest) / 2 ^ 8 = bytesToNat rest := by
        rw [h256, Nat.add_mul_div_left _ _ (by norm_num : (0:Nat) < 256)]
        simp [Nat.div_eq_of_lt hb]
      rw [hdd]
      simpa using ih hrest (by simpa using hd)

/-- A byte list whose numeric value is zero is all-zero. -/
theorem eq_replicate_of_bytesToNat_zero {l : List Nat}
    (hval : bytesToNat l = 0) : l = List.replicate l.length 0 := by
  induction l with
  | nil => rfl
  | cons b rest ih =>
    simp only [bytesToNat] at hval
    have hb : b = 0 := by omega
    have hr : bytesToNat rest = 0 := by omega
    rw [List.length_cons, List.replicate_succ, hb]
    exact congrArg _ (ih hr)

theorem bytesToNat_set_add {l : List Nat} {d : Nat} (hd : d < l.length) (a : Nat) :
    bytesToNat (l.set d (l.getD d 0 + a)) = bytesToNat l + a * 2 ^ (8 * d) := by
  induction l generalizing d with
  | nil => simp at hd
  | cons b rest ih =>
    cases d with
    | zero =>
      simp only [List.set, bytesToNat, List.getD, List.get?]
      simp [bytesToNat]
      ring
    | succ d =>
      have key : (2 : Nat) ^ (8 * (d + 1)) = 256 * 2 ^ (8 * d) := by
        have h8 : 8 * (d + 1) = 8 + 8 * d := by ring
        rw [h8, Nat.pow_add]
      simp only [List.set, bytesToNat, key]
      have hgd : (b :: rest).getD (d + 1) 0 = rest.getD d 0 := by simp [List.getD]
      rw [hgd, ih (by simpa using hd)]
      ring

/-! ## Raw bit transfer (`shmit::data::_detail::encode_bits` / `decode_bits`)

The C++ loops walk a destination pointer `dest` (resp. source `src`) byte
by byte.  `encodeBitsLoop o src d size buf` is the loop body of
`encode_bits` with `o` the fixed within-byte offset (`kStartByteBitsAvailable
= 8 - o`), `src` the remaining source bytes, `d` the current destination
index into `buf`, and `size` the remaining bit count.  `(*src &
kBitMasks[f]) << o` is written `s % 2^f * 2^o` and stores into a `uint8_t`
cell, hence the `% 256`.  The loop reads one source byte per iteration, so
it is structural in `src`; the C++ caller guarantees the source holds at
least `size` bits, which all callers in the model satisfy. -/

def encodeBitsLoop (o : Nat) : List Nat → Nat → Nat → List Nat → List Nat
  | _, _, 0, buf => buf
  | [], _, _ + 1, buf => buf
  | s :: srcRest, d, sz + 1, buf =>
    let n := sz + 1
    let f := min (8 - o) n
    let buf1 := buf.set d ((buf.getD d 0 ||| s % 2 ^ f * 2 ^ o) % 256)
    if 0 < o ∧ 0 < n - f then
      let l := min o (n - f)
      let buf2 := buf1.set (d + 1) (s / 2 ^ f % 2 ^ l % 256)
      encodeBitsLoop o srcRest (d + 1) (n - f - l) buf2
    else
      encodeBitsLoop o srcRest (d + 1) (n - f) buf1

/-- `encode_bits(dest, src, offset_bits, size_bits)`: splits the offset into
a byte offset (rolled back one cell when the bit offset is not 8-aligned)
and the within-byte offset `offset_bits & 0x7`, then runs the copy loop. -/
def encode_bits (buf src : List Nat) (offsetBits sizeBits : Nat) : List Nat :=
  let offsetBytes := math.bytes_to_contain offsetBits
  let o := offsetBits % 8
  let offsetBytes := if 0 < o ∧ 0 < offsetBytes then offsetBytes - 1 else offsetBytes
  encodeBitsLoop o src offsetBytes sizeBits buf

/-- Loop body of `decode_bits`: `dest` is the byte-aligned destination being
assembled, `src` the remaining unaligned source bytes (`*src++` consumes the
head; the tail write peeks at the following byte). -/
def decodeBitsLoop (o : Nat) : List Nat → Nat → Nat → List Nat → List Nat
  | _, _, 0, dest => dest
  | [], _, _ + 1, dest => dest
  | s :: srcRest, d, sz + 1, dest =>
    let n := sz + 1
    let f := min (8 - o) n
    let dest1 := dest.set d (s / 2 ^ o % 2 ^ f % 256)
    if 0 < o ∧ 0 < n - f then
      let l := min o (n - f)
      let dest2 := dest1.set d ((dest1.getD d 0 ||| srcRest.headD 0 % 2 ^ l * 2 ^ f) % 256)
      decodeBitsLoop o srcRest (d + 1) (n - f - l) dest2
    else
      decodeBitsLoop o srcRest (d + 1) (n - f) dest1

/-- `decode_bits(dest, src, offset_bits, size_bits)`: same offset split as
`encode_bits`, but the byte offset advances the source. -/
def decode_bits (dest buf : List Nat) (offsetBits sizeBits : Nat) : List Nat :=
  let offsetBytes := math.bytes_to_contain offsetBits
  let o := offsetBits % 8
  let offsetBytes := if 0 < o ∧ 0 < offsetBytes then offsetBytes - 1 else offsetBytes
  decodeBitsLoop o (buf.drop offsetBytes) 0 sizeBits dest

/-- The rolled-back start byte computed by `encode_bits`/`decode_bits` is
exactly `offset_bits / 8`. -/
theorem startByte_eq (offsetBits : Nat) :
    (if 0 < offsetBits % 8 ∧ 0 < math.bytes_to_contain offsetBits
     then math.bytes_to_contain offsetBits - 1
     else math.bytes_to_contain offsetBits) = offsetBits / 8 := by
  unfold math.bytes_to_contain
  by_cases h : offsetBits % 8 = 0
  · simp [h]
  · simp [h]

theorem allBytes_set {l : List Nat} (h : allBytes l) {v : Nat} (hv : v < 256) (d : Nat) :
    allBytes (l.set d v) := by
  intro b hb
  rcases List.mem_or_eq_of_mem_set hb with h1 | rfl
  · exact h b h1
  · exact hv

/-- Writes of at most 8 bits below position `n` do not change residues mod
`2^n` beyond the low byte: `(s + 256 * r) % 2^n = s % 2^n` for `n ≤ 8`. -/
theorem mod_add_mul_256 {n : Nat} (hn : n ≤ 8) (s r : Nat) :
    (s + 256 * r) % 2 ^ n = s % 2 ^ n := by
  have h : (256 : Nat) = 2 ^ n * 2 ^ (8 - n) := by
    rw [← Nat.pow_add]
    have h8 : n + (8 - n) = 8 := by omega
    rw [h8]
  rw [h, Nat.mul_assoc, Nat.add_mul_mod_self_left]

/-- Splitting a little-endian stream value at the first byte:
`(s + 256 * r) % 2^n = s + 256 * (r % 2^(n-8))` when `s < 256 ≤ 2^n`. -/
theorem mod_combine {n s : Nat} (r : Nat) (hs : s < 256) (hn : 8 ≤ n) :
    (s + 256 * r) % 2 ^ n = s + 256 * (r % 2 ^ (n - 8)) := by
  have h : (2 : Nat) ^ n = 256 * 2 ^ (n - 8) := by
    have h8 : (256 : Nat) = 2 ^ 8 := by norm_num
    rw [h8, ← Nat.pow_add]; congr 1; omega
  rw [h, Nat.mod_mul]
  congr 1
  · rw [Nat.add_mul_mod_self_left]
    exact Nat.mod_eq_of_lt hs
  · congr 1
    rw [Nat.add_mul_div_left _ _ (by norm_num : (0:Nat) < 256)]
    simp [Nat.div_eq_of_lt hs]

/-- OR of disjoint bit ranges is addition: `b ||| a * 2^o = b + a * 2^o`
when `b < 2^o`. -/
theorem or_low_high {b o : Nat} (hb : b < 2 ^ o) (a : Nat) :
    b ||| a * 2 ^ o = b + a * 2 ^ o := by
  rw [Nat.lor_comm, Nat.mul_comm a, ← Nat.mul_add_lt_is_or hb a]
  ring

/-- Splitting a value at bit `f`: `a % 2^(f+l) = a % 2^f + a / 2^f % 2^l * 2^f`. -/
theorem mod_split (a f l : Nat) :
    a % 2 ^ (f + l) = a % 2 ^ f + a / 2 ^ f % 2 ^ l * 2 ^ f := by
  rw [Nat.pow_add, Nat.mod_mul]
  ring

theorem set_take_succ {l : List Nat} {d : Nat} (h : d < l.length) (v : Nat) :
    (l.set d v).take (d + 1) = l.take d ++ [v] := by
  induction l generalizing d with
  | nil => simp at h
  | cons b rest ih =>
    cases d with
    | zero => simp
    | succ d =>
      simp only [List.set, List.take, List.cons_append]
      rw [ih (by simpa using h)]

theorem set_drop_of_lt {l : List Nat} {d k : Nat} (h : d < k) (v : Nat) :
    (l.set d v).drop k = l.drop k := by
  induction l generalizing d k with
  | nil => simp
  | cons b rest ih =>
    cases d with
    | zero =>
      cases k with
      | zero => omega
      | succ k => simp [List.set]
    | succ d =>
      cases k with
      | zero => omega
      | succ k =>
        simp only [List.set, List.drop]
        exact ih (by omega : d < k)

theorem getD_set_self {l : List Nat} {d : Nat} (h : d < l.length) (v : Nat) :
    (l.set d v).getD d 0 = v := by
  induction l generalizing d with
  | nil => simp at h
  | cons b rest ih =>
    cases d with
    | zero => rfl
    | succ d => exact ih (by simpa using h)

/-- Correctness of the `encode_bits` loop.  Starting at destination byte `d`
with fixed within-byte offset `o`, writing `n` bits of the little-endian
source stream into a buffer whose bits at positions `≥ 8*d + o` are all
zero adds exactly `(src mod 2^n) * 2^(8*d+o)` to the buffer value. -/
theorem encodeBitsLoop_spec {o : Nat} (ho : o < 8) :
    ∀ (src : List Nat) (d n : Nat) (buf : List Nat),
      allBytes buf → allBytes src →
      n ≤ 8 * src.length → 8 * d + o + n ≤ 8 * buf.length →
      bytesToNat buf < 2 ^ (8 * d + o) →
      (encodeBitsLoop o src d n buf).length = buf.length ∧
      allBytes (encodeBitsLoop o src d n buf) ∧
      bytesToNat (encodeBitsLoop o src d n buf)
        = bytesToNat buf + bytesToNat src % 2 ^ n * 2 ^ (8 * d + o) := by
  intro src
  induction src with
  | nil =>
    intro d n buf hb hs hn hlen hinv
    have hn0 : n = 0 := by simpa using hn
    subst hn0
    simp [encodeBitsLoop, bytesToNat, Nat.mod_one]
    exact hb
  | cons s rest ih =>
    intro d n buf hb hs hn hlen hinv
    cases n with
    | zero =>
      simp [encodeBitsLoop, Nat.mod_one]
      exact hb
    | succ sz =>
      have hs_s : s < 256 := hs s (by simp)
      have hs_rest : allBytes rest := fun x hx => hs x (by simp [hx])
      have hn1 : sz + 1 ≤ 8 * (rest.length + 1) := by simpa using hn
      have hd_lt : d < buf.length := by omega
      simp only [encodeBitsLoop]
      set f := min (8 - o) (sz + 1) with hf
      have hf_pos : 0 < f := by omega
      have hf_le : f + o ≤ 8 := by omega
      -- the first write: OR the low `f` source bits at offset `o` into byte `d`
      have hbyteD_lt : buf.getD d 0 < 2 ^ o := by
        rw [getD_eq_div_mod hb hd_lt]
        have hlt : bytesToNat buf / 2 ^ (8 * d) < 2 ^ o := by
          apply Nat.div_lt_of_lt_mul
          rw [← Nat.pow_add]
          exact hinv
        have ho256 : (2 : Nat) ^ o < 256 := by
          calc (2 : Nat) ^ o < 2 ^ 8 := Nat.pow_lt_pow_right (by norm_num) ho
            _ = 256 := by norm_num
        rw [Nat.mod_eq_of_lt (lt_trans hlt ho256)]
        exact hlt
      have hsf_lt : s % 2 ^ f < 2 ^ f := Nat.mod_lt _ (Nat.pos_pow_of_pos f (by norm_num))
      have hw1_lt : buf.getD d 0 + s % 2 ^ f * 2 ^ o < 256 := by
        calc buf.getD d 0 + s % 2 ^ f * 2 ^ o
            < 2 ^ o + s % 2 ^ f * 2 ^ o := by omega
          _ = (s % 2 ^ f + 1) * 2 ^ o := by ring
          _ ≤ 2 ^ f * 2 ^ o := Nat.mul_le_mul_right _ (by omega)
          _ = 2 ^ (f + o) := by rw [Nat.pow_add]
          _ ≤ 2 ^ 8 := Nat.pow_le_pow_right (by norm_num) hf_le
          _ = 256 := by norm_num
      have hmod_w1 : (buf.getD d 0 ||| s % 2 ^ f * 2 ^ o) % 256
          = buf.getD d 0 + s % 2 ^ f * 2 ^ o := by
        rw [or_low_high hbyteD_lt]
        exact Nat.mod_eq_of_lt hw1_lt
      set buf1 := buf.set d ((buf.getD d 0 ||| s % 2 ^ f * 2 ^ o) % 256) with hbuf1
      have hbuf1_eq : buf1 = buf.set d (buf.getD d 0 + s % 2 ^ f * 2 ^ o) := by
        rw [hbuf1, hmod_w1]
      have hbuf1_len : buf1.length = buf.length := by rw [hbuf1_eq]; simp
      have hbuf1_bytes : allBytes buf1 := by
        rw [hbuf1_eq]; exact allBytes_set hb hw1_lt d
      have hbuf1_nat : bytesToNat buf1
          = bytesToNat buf + s % 2 ^ f * 2 ^ o * 2 ^ (8 * d) := by
        rw [hbuf1_eq]; exact bytesToNat_set_add hd_lt _
      have hpow_do : (2 : Nat) ^ (8 * d + o) = 2 ^ (8 * d) * 2 ^ o := by
        rw [Nat.pow_add]
      have hbuf1_lt : bytesToNat buf1 < 2 ^ (8 * d + o + f) := by
        rw [hbuf1_nat]
        have hstep : (2 : Nat) ^ (8 * d + o + f) = 2 ^ f * 2 ^ (8 * d + o) := by
          rw [Nat.pow_add]; ring
        calc bytesToNat buf + s % 2 ^ f * 2 ^ o * 2 ^ (8 * d)
            = bytesToNat buf + s % 2 ^ f * 2 ^ (8 * d + o) := by
              rw [hpow_do]; ring
          _ < 2 ^ (8 * d + o) + s % 2 ^ f * 2 ^ (8 * d + o) := by omega
          _ = (s % 2 ^ f + 1) * 2 ^ (8 * d + o) := by ring
          _ ≤ 2 ^ f * 2 ^ (8 * d + o) := Nat.mul_le_mul_right _ (by omega)
          _ = 2 ^ (8 * d + o + f) := by rw [hstep]
      by_cases hc : 0 < o ∧ 0 < sz + 1 - f
      · -- the value wraps over the byte boundary: the tail write fills byte d+1
        rw [if_pos hc]
        set l := min o (sz + 1 - f) with hl
        have hfo : f = 8 - o := by omega
        have hl_le : l ≤ o := by omega
        have hd1_lt : d + 1 < buf.length := by omega
        have hw2_lt : s / 2 ^ f % 2 ^ l < 256 := by
          have h1 : s / 2 ^ f % 2 ^ l < 2 ^ l := Nat.mod_lt _ (Nat.pos_pow_of_pos l (by norm_num))
          have h2 : (2 : Nat) ^ l ≤ 2 ^ 8 := Nat.pow_le_pow_right (by norm_num) (by omega)
          have h3 : (2 : Nat) ^ 8 = 256 := by norm_num
          omega
        have hmod_w2 : s / 2 ^ f % 2 ^ l % 256 = s / 2 ^ f % 2 ^ l :=
          Nat.mod_eq_of_lt hw2_lt
        have hd1_lt1 : d + 1 < buf1.length := by omega
        have hbuf1_lt8 : bytesToNat buf1 < 2 ^ (8 * (d + 1)) := by
          have : 8 * d + o + f = 8 * (d + 1) := by omega
          rw [← this]; exact hbuf1_lt
        have hgd1 : buf1.getD (d + 1) 0 = 0 := by
          rw [getD_eq_div_mod hbuf1_bytes hd1_lt1]
          rw [Nat.div_eq_of_lt hbuf1_lt8]
        set buf2 := buf1.set (d + 1) (s / 2 ^ f % 2 ^ l % 256) with hbuf2
        have hbuf2_eq : buf2 = buf1.set (d + 1) (buf1.getD (d + 1) 0 + s / 2 ^ f % 2 ^ l) := by
          rw [hbuf2, hmod_w2, hgd1, Nat.zero_add]
        have hbuf2_len : buf2.length = buf.length := by rw [hbuf2_eq]; simp [hbuf1_len]
        have hbuf2_bytes : allBytes buf2 := by
          rw [hbuf2_eq, hgd1, Nat.zero_add]
          exact allBytes_set hbuf1_bytes hw2_lt (d + 1)
        have hbuf2_nat : bytesToNat buf2
            = bytesToNat buf1 + s / 2 ^ f % 2 ^ l * 2 ^ (8 * (d + 1)) := by
          rw [hbuf2_eq]; exact bytesToNat_set_add hd1_lt1 _
        by_cases hz : sz + 1 - f - l = 0
        · -- the remaining bits all fit in the tail: the loop ends at byte d+1
          have hlz : l = sz + 1 - f := by omega
          rw [hz]
          have hres : encodeBitsLoop o rest (d + 1) 0 buf2 = buf2 := by
            cases rest <;> simp [encodeBitsLoop]
          rw [hres]
          refine ⟨hbuf2_len, hbuf2_bytes, ?_⟩
          have hn8 : sz + 1 ≤ 8 := by omega
          have hfl : f + l = sz + 1 := by omega
          have hsrc : bytesToNat (s :: rest) % 2 ^ (sz + 1) = s % 2 ^ (sz + 1) := by
            show (s + 256 * bytesToNat rest) % 2 ^ (sz + 1) = s % 2 ^ (sz + 1)
            exact mod_add_mul_256 hn8 _ _
          rw [hbuf2_nat, hbuf1_nat, hsrc, ← hfl, mod_split]
          have h81 : 8 * (d + 1) = f + (8 * d + o) := by omega
          rw [h81, hpow_do, Nat.pow_add]
          ring
        · -- more bits remain: continue at byte d+1 with offset o again
          have hlo : l = o := by omega
          have hn2 : sz + 1 - f - l = sz + 1 - 8 := by omega
          have hn8 : 8 ≤ sz + 1 := by omega
          have hbuf2_lt : bytesToNat buf2 < 2 ^ (8 * (d + 1) + o) := by
            rw [hbuf2_nat]
            have h1 : s / 2 ^ f % 2 ^ l < 2 ^ l :=
              Nat.mod_lt _ (Nat.pos_pow_of_pos l (by norm_num))
            have hstep : (2 : Nat) ^ (8 * (d + 1) + o) = 2 ^ o * 2 ^ (8 * (d + 1)) := by
              rw [Nat.pow_add]; ring
            calc bytesToNat buf1 + s / 2 ^ f % 2 ^ l * 2 ^ (8 * (d + 1))
                < 2 ^ (8 * (d + 1)) + s / 2 ^ f % 2 ^ l * 2 ^ (8 * (d + 1)) := by omega
              _ = (s / 2 ^ f % 2 ^ l + 1) * 2 ^ (8 * (d + 1)) := by ring
              _ ≤ 2 ^ l * 2 ^ (8 * (d + 1)) := Nat.mul_le_mul_right _ (by omega)
              _ = 2 ^ o * 2 ^ (8 * (d + 1)) := by rw [hlo]
              _ = 2 ^ (8 * (d + 1) + o) := by rw [hstep]
          obtain ⟨ihlen, ihbytes, ihval⟩ := ih (d + 1) (sz + 1 - f - l) buf2
            hbuf2_bytes hs_rest (by omega) (by rw [hbuf2_len]; omega) hbuf2_lt
          refine ⟨by rw [ihlen, hbuf2_len], ihbytes, ?_⟩
          rw [ihval, hbuf2_nat, hbuf1_nat, hn2, hlo]
          have hsrc : bytesToNat (s :: rest) % 2 ^ (sz + 1)
              = s + 256 * (bytesToNat rest % 2 ^ (sz + 1 - 8)) := by
            show (s + 256 * bytesToNat rest) % 2 ^ (sz + 1)
                = s + 256 * (bytesToNat rest % 2 ^ (sz + 1 - 8))
            exact mod_combine _ hs_s hn8
          rw [hsrc]
          -- reassemble `s` from its two written pieces
          have hs_split : s = s % 2 ^ f + s / 2 ^ f % 2 ^ o * 2 ^ f := by
            have h8 : f + o = 8 := by omega
            have hsp := mod_split s f o
            rw [h8] at hsp
            have hs8 : s % 2 ^ 8 = s := Nat.mod_eq_of_lt (by norm_num; omega)
            omega
          set m := s % 2 ^ f with hm
          set w := s / 2 ^ f % 2 ^ o with hw
          set r := bytesToNat rest % 2 ^ (sz + 1 - 8) with hr
          have e1 : (2 : Nat) ^ (8 * (d + 1)) = 2 ^ (8 * d) * 2 ^ o * 2 ^ f := by
            have h8 : 8 * (d + 1) = 8 * d + o + f := by omega
            rw [h8, Nat.pow_add, Nat.pow_add]
          have e2 : (2 : Nat) ^ (8 * (d + 1) + o)
              = 2 ^ (8 * d) * 2 ^ o * 2 ^ f * 2 ^ o := by
            have h8 : 8 * (d + 1) + o = 8 * d + o + f + o := by omega
            rw [h8, Nat.pow_add, Nat.pow_add, Nat.pow_add]
          have h256 : (256 : Nat) = 2 ^ o * 2 ^ f := by
            rw [← Nat.pow_add]
            have h8 : o + f = 8 := by omega
            rw [h8]
          rw [hpow_do, e1, e2, h256, hs_split]
          ring
      · -- no tail write here: either o = 0 or the bits end inside this byte
        rw [if_neg hc]
        by_cases hz : sz + 1 - f = 0
        · -- all `sz+1` bits land in byte d: the loop ends
          have hfz : f = sz + 1 := by omega
          rw [hz]
          have hres : encodeBitsLoop o rest (d + 1) 0 buf1 = buf1 := by
            cases rest <;> simp [encodeBitsLoop]
          rw [hres]
          refine ⟨hbuf1_len, hbuf1_bytes, ?_⟩
          have hn8 : sz + 1 ≤ 8 := by omega
          have hsrc : bytesToNat (s :: rest) % 2 ^ (sz + 1) = s % 2 ^ (sz + 1) := by
            show (s + 256 * bytesToNat rest) % 2 ^ (sz + 1) = s % 2 ^ (sz + 1)
            exact mod_add_mul_256 hn8 _ _
          rw [hbuf1_nat, hsrc, ← hfz, hpow_do]
          ring
        · -- o = 0 and a full byte was written: continue at byte d+1
          have ho0 : o = 0 := by omega
          have hf8 : f = 8 := by omega
          have hbuf1_lt8 : bytesToNat buf1 < 2 ^ (8 * (d + 1) + o) := by
            have h8 : 8 * d + o + f = 8 * (d + 1) + o := by omega
            rw [← h8]; exact hbuf1_lt
          obtain ⟨ihlen, ihbytes, ihval⟩ := ih (d + 1) (sz + 1 - f) buf1
            hbuf1_bytes hs_rest (by omega) (by rw [hbuf1_len]; omega) hbuf1_lt8
          refine ⟨by rw [ihlen, hbuf1_len], ihbytes, ?_⟩
          rw [ihval, hbuf1_nat]
          have hn8 : 8 ≤ sz + 1 := by omega
          have hsrc : bytesToNat (s :: rest) % 2 ^ (sz + 1)
              = s + 256 * (bytesToNat rest % 2 ^ (sz + 1 - 8)) := by
            show (s + 256 * bytesToNat rest) % 2 ^ (sz + 1)
                = s + 256 * (bytesToNat rest % 2 ^ (sz + 1 - 8))
            exact mod_combine _ hs_s hn8
          rw [hsrc]
          have hs8 : s % 2 ^ f = s := by
            rw [hf8]
            exact Nat.mod_eq_of_lt (by norm_num; omega)
          have h81 : (2 : Nat) ^ (8 * (d + 1) + o) = 256 * 2 ^ (8 * d + o) := by
            have h8 : 8 * (d + 1) + o = 8 + (8 * d + o) := by omega
            rw [h8, Nat.pow_add]
          have hnn : sz + 1 - f = sz + 1 - 8 := by omega
          rw [hs8, hnn, h81, ho0]
          ring

/-- Correctness of the `decode_bits` loop: reading `n` bits starting `o`
bits into the source stream overwrites destination bytes
`d ..= d + ⌈n/8⌉ - 1` with the little-endian representation of the
extracted bits and leaves all other destination bytes unchanged. -/
theorem decodeBitsLoop_spec {o : Nat} (ho : o < 8) :
    ∀ (src : List Nat) (d n : Nat) (dest : List Nat),
      allBytes src →
      o + n ≤ 8 * src.length → 8 * d + n ≤ 8 * dest.length →
      decodeBitsLoop o src d n dest
        = dest.take d
          ++ natToBytesLE (math.bytes_to_contain n) (bytesToNat src / 2 ^ o % 2 ^ n)
          ++ dest.drop (d + math.bytes_to_contain n) := by
  intro src
  induction src with
  | nil =>
    intro d n dest hs hn hlen
    have hn0 : n = 0 := by simp at hn; omega
    subst hn0
    simp [decodeBitsLoop, math.bytes_to_contain, natToBytesLE]
  | cons s rest ih =>
    intro d n dest hs hn hlen
    cases n with
    | zero => simp [decodeBitsLoop, math.bytes_to_contain, natToBytesLE]
    | succ sz =>
      have hs_s : s < 256 := hs s (by simp)
      have hs_rest : allBytes rest := fun x hx => hs x (by simp [hx])
      have hn1 : o + (sz + 1) ≤ 8 * (rest.length + 1) := by simpa using hn
      have hd_lt : d < dest.length := by omega
      have h2_8 : (2 : Nat) ^ 8 = 256 := by norm_num
      simp only [decodeBitsLoop]
      set f := min (8 - o) (sz + 1) with hf
      have hf_pos : 0 < f := by omega
      have hf_le : f + o ≤ 8 := by omega
      have hw1_lt : s / 2 ^ o % 2 ^ f < 2 ^ f :=
        Nat.mod_lt _ (Nat.pos_pow_of_pos f (by norm_num))
      have h2f : (2 : Nat) ^ f ≤ 256 := by
        calc (2 : Nat) ^ f ≤ 2 ^ 8 := Nat.pow_le_pow_right (by norm_num) (by omega)
          _ = 256 := by norm_num
      have hmod_w1 : s / 2 ^ o % 2 ^ f % 256 = s / 2 ^ o % 2 ^ f :=
        Nat.mod_eq_of_lt (lt_of_lt_of_le hw1_lt h2f)
      set dest1 := dest.set d (s / 2 ^ o % 2 ^ f % 256) with hdest1
      have hdest1_len : dest1.length = dest.length := by rw [hdest1]; simp
      -- the source stream read at offset `o`
      have h256o : (256 : Nat) = 2 ^ o * 2 ^ (8 - o) := by
        rw [← Nat.pow_add]
        have h8 : o + (8 - o) = 8 := by omega
        rw [h8]
      have hsrc_div : bytesToNat (s :: rest) / 2 ^ o
          = s / 2 ^ o + bytesToNat rest * 2 ^ (8 - o) := by
        show (s + 256 * bytesToNat rest) / 2 ^ o
            = s / 2 ^ o + bytesToNat rest * 2 ^ (8 - o)
        rw [h256o, Nat.mul_assoc]
        rw [Nat.add_mul_div_left _ _ (Nat.pos_pow_of_pos o (by norm_num))]
        ring
      have hsdef : s / 2 ^ o < 2 ^ (8 - o) := by
        apply Nat.div_lt_of_lt_mul
        calc s < 256 := hs_s
          _ = 2 ^ o * 2 ^ (8 - o) := h256o
      by_cases hc : 0 < o ∧ 0 < sz + 1 - f
      · rw [if_pos hc]
        have hfo : f = 8 - o := by omega
        set l := min o (sz + 1 - f) with hl
        have hl_le : l ≤ o := by omega
        cases rest with
        | nil => exfalso; simp at hn1; omega
        | cons t rest2 =>
          have ht_lt : t < 256 := hs_rest t (by simp)
          have hv2_lt : t % 2 ^ l < 2 ^ l :=
            Nat.mod_lt _ (Nat.pos_pow_of_pos l (by norm_num))
          have hVlt : s / 2 ^ o % 2 ^ f + t % 2 ^ l * 2 ^ f < 256 := by
            calc s / 2 ^ o % 2 ^ f + t % 2 ^ l * 2 ^ f
                < 2 ^ f + t % 2 ^ l * 2 ^ f := by omega
              _ = (t % 2 ^ l + 1) * 2 ^ f := by ring
              _ ≤ 2 ^ l * 2 ^ f := Nat.mul_le_mul_right _ (by omega)
              _ = 2 ^ (l + f) := by rw [Nat.pow_add]
              _ ≤ 2 ^ 8 := Nat.pow_le_pow_right (by norm_num) (by omega)
              _ = 256 := by norm_num
          have hgd : dest1.getD d 0 = s / 2 ^ o % 2 ^ f := by
            rw [hdest1, getD_set_self hd_lt, hmod_w1]
          have hor : dest1.getD d 0 ||| (t :: rest2).headD 0 % 2 ^ l * 2 ^ f
              = s / 2 ^ o % 2 ^ f + t % 2 ^ l * 2 ^ f := by
            rw [hgd]
            exact or_low_high hw1_lt _
          have hset2 : dest1.set d
              ((dest1.getD d 0 ||| (t :: rest2).headD 0 % 2 ^ l * 2 ^ f) % 256)
              = dest.set d (s / 2 ^ o % 2 ^ f + t % 2 ^ l * 2 ^ f) := by
            rw [hor, Nat.mod_eq_of_lt hVlt, hdest1, List.set_set]
          rw [hset2]
          -- the extracted bits of the combined byte
          have hself : s / 2 ^ o % 2 ^ f = s / 2 ^ o := by
            apply Nat.mod_eq_of_lt
            rw [hfo]; exact hsdef
          have hA : bytesToNat (s :: t :: rest2) / 2 ^ o
              = s / 2 ^ o + 2 ^ f * (t + 256 * bytesToNat rest2) := by
            rw [hsrc_div, ← hfo]
            show s / 2 ^ o + (t + 256 * bytesToNat rest2) * 2 ^ f
                = s / 2 ^ o + 2 ^ f * (t + 256 * bytesToNat rest2)
            ring
          have hAmod : ∀ m : Nat, m ≤ 8 →
              bytesToNat (s :: t :: rest2) / 2 ^ o % 2 ^ (f + m)
              = s / 2 ^ o + t % 2 ^ m * 2 ^ f := by
            intro m hm
            rw [mod_split, hA]
            have hx1 : (s / 2 ^ o + 2 ^ f * (t + 256 * bytesToNat rest2)) % 2 ^ f
                = s / 2 ^ o := by
              rw [Nat.add_mul_mod_self_left]
              exact hself
            have hx2 : (s / 2 ^ o + 2 ^ f * (t + 256 * bytesToNat rest2)) / 2 ^ f
                = t + 256 * bytesToNat rest2 := by
              rw [Nat.add_mul_div_left _ _ (Nat.pos_pow_of_pos f (by norm_num))]
              simp [Nat.div_eq_of_lt (hfo ▸ hsdef)]
            rw [hx1, hx2, mod_add_mul_256 hm t _]
          by_cases hz : sz + 1 - f - l = 0
          · -- the bits end inside byte d: the loop stops after the tail write
            have hfl : f + l = sz + 1 := by omega
            rw [hz]
            have hres : ∀ dst : List Nat,
                decodeBitsLoop o (t :: rest2) (d + 1) 0 dst = dst := by
              intro dst; simp [decodeBitsLoop]
            rw [hres]
            have hb2c1 : math.bytes_to_contain (sz + 1) = 1 := by
              rw [math.bytes_to_contain_eq]; omega
            have hE : bytesToNat (s :: t :: rest2) / 2 ^ o % 2 ^ (sz + 1)
                = s / 2 ^ o + t % 2 ^ l * 2 ^ f := by
              rw [← hfl]; exact hAmod l (by omega)
            have hE_lt : s / 2 ^ o + t % 2 ^ l * 2 ^ f < 256 := by
              rw [← hself]; exact hVlt
            rw [hb2c1, hE]
            show dest.set d (s / 2 ^ o % 2 ^ f + t % 2 ^ l * 2 ^ f)
                = dest.take d
                  ++ natToBytesLE 1 (s / 2 ^ o + t % 2 ^ l * 2 ^ f)
                  ++ dest.drop (d + 1)
            rw [set_eq_take_cons_drop hd_lt, hself]
            show dest.take d ++ (s / 2 ^ o + t % 2 ^ l * 2 ^ f) :: dest.drop (d + 1)
                = dest.take d
                  ++ ((s / 2 ^ o + t % 2 ^ l * 2 ^ f) % 256 :: natToBytesLE 0
                        ((s / 2 ^ o + t % 2 ^ l * 2 ^ f) / 256))
                  ++ dest.drop (d + 1)
            rw [Nat.mod_eq_of_lt hE_lt]
            simp [natToBytesLE]
          · -- more bits follow: l = o and the loop continues at byte d + 1
            have hlo : l = o := by omega
            have hn2 : sz + 1 - f - l = sz + 1 - 8 := by omega
            have hn9 : 9 ≤ sz + 1 := by omega
            have hlen2 : (t :: rest2).length = rest2.length + 1 := by simp
            have ihres := ih (d + 1) (sz + 1 - f - l)
              (dest.set d (s / 2 ^ o % 2 ^ f + t % 2 ^ l * 2 ^ f))
              hs_rest (by rw [hlen2]; omega) (by simp; omega)
            rw [ihres]
            have hb2c : math.bytes_to_contain (sz + 1)
                = math.bytes_to_contain (sz + 1 - 8) + 1 := by
              rw [math.bytes_to_contain_eq, math.bytes_to_contain_eq]; omega
            have ht1 := set_take_succ hd_lt (s / 2 ^ o % 2 ^ f + t % 2 ^ l * 2 ^ f)
            have ht2 : (dest.set d (s / 2 ^ o % 2 ^ f + t % 2 ^ l * 2 ^ f)).drop
                  (d + 1 + math.bytes_to_contain (sz + 1 - f - l))
                = dest.drop (d + 1 + math.bytes_to_contain (sz + 1 - f - l)) :=
              set_drop_of_lt (by omega) _
            rw [ht1, ht2, hn2, hb2c]
            -- split the extracted value at its first byte
            have hEmod : bytesToNat (s :: t :: rest2) / 2 ^ o % 2 ^ (sz + 1) % 256
                = s / 2 ^ o % 2 ^ f + t % 2 ^ l * 2 ^ f := by
              rw [← h2_8, Nat.mod_mod_of_dvd _ (Nat.pow_dvd_pow 2 (by omega))]
              have h8 : (8 : Nat) = f + o := by omega
              rw [h8, hAmod o (by omega), hself, hlo]
            have hAdiv : bytesToNat (s :: t :: rest2) / 2 ^ o / 2 ^ 8
                = bytesToNat (t :: rest2) / 2 ^ o := by
              rw [Nat.div_div_eq_div_mul, Nat.mul_comm ((2:Nat) ^ o), ← Nat.div_div_eq_div_mul]
              congr 1
              show (s + 256 * bytesToNat (t :: rest2)) / 2 ^ 8 = bytesToNat (t :: rest2)
              rw [h2_8, Nat.add_mul_div_left _ _ (by norm_num : (0:Nat) < 256)]
              simp [Nat.div_eq_of_lt hs_s]
            have hEdiv : bytesToNat (s :: t :: rest2) / 2 ^ o % 2 ^ (sz + 1) / 256
                = bytesToNat (t :: rest2) / 2 ^ o % 2 ^ (sz + 1 - 8) := by
              have hsplit : (2 : Nat) ^ (sz + 1) = 2 ^ 8 * 2 ^ (sz + 1 - 8) := by
                rw [← Nat.pow_add]; congr 1; omega
              rw [hsplit, ← h2_8, Nat.mod_mul_right_div_self, hAdiv]
            have hidx : d + (math.bytes_to_contain (sz + 1 - 8) + 1)
                = d + 1 + math.bytes_to_contain (sz + 1 - 8) := by omega
            rw [hidx]
            simp only [natToBytesLE]
            rw [hEmod, hEdiv]
            simp
      · rw [if_neg hc]
        by_cases hz : sz + 1 - f = 0
        · -- all bits land in byte d: the loop stops
          have hfz : f = sz + 1 := by omega
          have hle8 : sz + 1 ≤ 8 - o := by omega
          rw [hz]
          have hres : decodeBitsLoop o rest (d + 1) 0 dest1 = dest1 := by
            cases rest <;> simp [decodeBitsLoop]
          rw [hres]
          have hb2c1 : math.bytes_to_contain (sz + 1) = 1 := by
            rw [math.bytes_to_contain_eq]; omega
          have hE : bytesToNat (s :: rest) / 2 ^ o % 2 ^ (sz + 1)
              = s / 2 ^ o % 2 ^ (sz + 1) := by
            rw [hsrc_div]
            have h1 : (2 : Nat) ^ (8 - o) = 2 ^ (sz + 1) * 2 ^ (8 - o - (sz + 1)) := by
              rw [← Nat.pow_add]; congr 1; omega
            have h2 : s / 2 ^ o + bytesToNat rest * (2 ^ (sz + 1) * 2 ^ (8 - o - (sz + 1)))
                = s / 2 ^ o + 2 ^ (sz + 1) * (bytesToNat rest * 2 ^ (8 - o - (sz + 1))) := by
              ring
            rw [h1, h2, Nat.add_mul_mod_self_left]
          have hE_lt : s / 2 ^ o % 2 ^ (sz + 1) < 256 := by
            have h1 : s / 2 ^ o % 2 ^ (sz + 1) < 2 ^ (sz + 1) :=
              Nat.mod_lt _ (Nat.pos_pow_of_pos _ (by norm_num))
            have h2 : (2 : Nat) ^ (sz + 1) ≤ 2 ^ 8 :=
              Nat.pow_le_pow_right (by norm_num) (by omega)
            omega
          rw [hb2c1, hE, hdest1, hmod_w1, hfz]
          rw [set_eq_take_cons_drop hd_lt]
          show dest.take d ++ s / 2 ^ o % 2 ^ (sz + 1) :: dest.drop (d + 1)
              = dest.take d
                ++ (s / 2 ^ o % 2 ^ (sz + 1) % 256
                    :: natToBytesLE 0 (s / 2 ^ o % 2 ^ (sz + 1) / 256))
                ++ dest.drop (d + 1)
          rw [Nat.mod_eq_of_lt hE_lt]
          simp [natToBytesLE]
        · -- o = 0 and a full byte was consumed: the loop continues
          have ho0 : o = 0 := by omega
          have hf8 : f = 8 := by omega
          have hn9 : 9 ≤ sz + 1 := by omega
          have hbd : s / 2 ^ o % 2 ^ f % 256 = s := by
            rw [ho0, hf8, h2_8]
            simp [Nat.mod_eq_of_lt hs_s]
          have ihres := ih (d + 1) (sz + 1 - f) dest1 hs_rest
            (by omega) (by rw [hdest1_len]; omega)
          rw [ihres]
          have hb2c : math.bytes_to_contain (sz + 1)
              = math.bytes_to_contain (sz + 1 - 8) + 1 := by
            rw [math.bytes_to_contain_eq, math.bytes_to_contain_eq]; omega
          have ht1 : dest1.take (d + 1) = dest.take d ++ [s] := by
            rw [hdest1, hbd]
            exact set_take_succ hd_lt s
          have ht2 : dest1.drop (d + 1 + math.bytes_to_contain (sz + 1 - f))
              = dest.drop (d + 1 + math.bytes_to_contain (sz + 1 - f)) := by
            rw [hdest1, hbd]
            exact set_drop_of_lt (by omega) s
          have hnn : sz + 1 - f = sz + 1 - 8 := by omega
          have hE : bytesToNat (s :: rest) / 2 ^ o % 2 ^ (sz + 1)
              = s + 256 * (bytesToNat rest % 2 ^ (sz + 1 - 8)) := by
            rw [ho0]
            show bytesToNat (s :: rest) / 2 ^ 0 % 2 ^ (sz + 1)
                = s + 256 * (bytesToNat rest % 2 ^ (sz + 1 - 8))
            rw [Nat.pow_zero, Nat.div_one]
            show (s + 256 * bytesToNat rest) % 2 ^ (sz + 1)
                = s + 256 * (bytesToNat rest % 2 ^ (sz + 1 - 8))
            exact mod_combine _ hs_s (by omega)
          have hE2 : bytesToNat rest / 2 ^ o % 2 ^ (sz + 1 - f)
              = bytesToNat rest % 2 ^ (sz + 1 - 8) := by
            rw [ho0, hnn, Nat.pow_zero, Nat.div_one]
          rw [ht1, ht2, hE2, hnn, hb2c, hE]
          have hEmod : (s + 256 * (bytesToNat rest % 2 ^ (sz + 1 - 8))) % 256 = s := by
            rw [Nat.add_mul_mod_self_left]
            exact Nat.mod_eq_of_lt hs_s
          have hEdiv : (s + 256 * (bytesToNat rest % 2 ^ (sz + 1 - 8))) / 256
              = bytesToNat rest % 2 ^ (sz + 1 - 8) := by
            rw [Nat.add_mul_div_left _ _ (by norm_num : (0:Nat) < 256)]
            simp [Nat.div_eq_of_lt hs_s]
          have hidx : d + (math.bytes_to_contain (sz + 1 - 8) + 1)
              = d + 1 + math.bytes_to_contain (sz + 1 - 8) := by omega
          rw [hidx]
          simp only [natToBytesLE]
          rw [hEmod, hEdiv]
          simp

/-- `encode_bits` adds the low `size_bits` bits of the little-endian source
value, shifted to bit position `offset_bits`, to a buffer that is zero at
and above that position, leaving lower bits untouched. -/
theorem encode_bits_spec {buf src : List Nat} {offsetBits sizeBits : Nat}
    (hb : allBytes buf) (hs : allBytes src)
    (hn : sizeBits ≤ 8 * src.length)
    (hlen : offsetBits + sizeBits ≤ 8 * buf.length)
    (hinv : bytesToNat buf < 2 ^ offsetBits) :
    (encode_bits buf src offsetBits sizeBits).length = buf.length ∧
    allBytes (encode_bits buf src offsetBits sizeBits) ∧
    bytesToNat (encode_bits buf src offsetBits sizeBits)
      = bytesToNat buf + bytesToNat src % 2 ^ sizeBits * 2 ^ offsetBits := by
  have ho : offsetBits % 8 < 8 := Nat.mod_lt _ (by norm_num)
  have hoff : 8 * (offsetBits / 8) + offsetBits % 8 = offsetBits := by omega
  simp only [encode_bits]
  rw [startByte_eq]
  have hmain := encodeBitsLoop_spec ho src (offsetBits / 8) sizeBits buf hb hs hn
    (by omega) (by rw [hoff]; exact hinv)
  rw [hoff] at hmain
  exact hmain

/-- `decode_bits` overwrites the first `⌈size_bits/8⌉` destination bytes
with the bits of the buffer at positions `offset_bits ..< offset_bits +
size_bits`, read little-endian, and leaves the remaining destination bytes
unchanged. -/
theorem decode_bits_spec {dest buf : List Nat} {offsetBits sizeBits : Nat}
    (hs : allBytes buf)
    (hn : offsetBits + sizeBits ≤ 8 * buf.length)
    (hlen : sizeBits ≤ 8 * dest.length) :
    decode_bits dest buf offsetBits sizeBits
      = natToBytesLE (math.bytes_to_contain sizeBits)
          (bytesToNat buf / 2 ^ offsetBits % 2 ^ sizeBits)
        ++ dest.drop (math.bytes_to_contain sizeBits) := by
  have ho : offsetBits % 8 < 8 := Nat.mod_lt _ (by norm_num)
  have hoff : 8 * (offsetBits / 8) + offsetBits % 8 = offsetBits := by omega
  simp only [decode_bits]
  rw [startByte_eq]
  have hdropBytes : allBytes (buf.drop (offsetBits / 8)) :=
    fun x hx => hs x (List.mem_of_mem_drop hx)
  have hsrclen : (buf.drop (offsetBits / 8)).length = buf.length - offsetBits / 8 := by
    simp
  have hmain := decodeBitsLoop_spec ho (buf.drop (offsetBits / 8)) 0 sizeBits dest
    hdropBytes (by rw [hsrclen]; omega) (by omega)
  rw [hmain, bytesToNat_drop hs]
  have hdiv : bytesToNat buf / 2 ^ (8 * (offsetBits / 8)) / 2 ^ (offsetBits % 8)
      = bytesToNat buf / 2 ^ offsetBits := by
    rw [Nat.div_div_eq_div_mul, ← Nat.pow_add, hoff]
  rw [hdiv]
  simp

/-! ## Field algebra (ShmitCore/Data/Field.hpp, Core/Data/Primitives.hpp)

A field is modelled together with its stored value.  `aligned bytes` is
`Field<T>` for an arithmetic or pointer `T`, carrying the object
representation of the stored value (`sizeof(T)` bytes, host little-endian
order, so `kSizeBits = sizeof(T) * CHAR_BIT = 8 * bytes.length`).
`bitf n v` is `BitField<n>`, `constBitf n v` is `ConstBitField<n>` (value
write-once), and `packet fs` is a nested `Packet` stored as
`Field<Packet<...>>`. -/

/-- Byte width of `smallest_unsigned<N>::type` (or `bool` when `N = 1`,
also one byte); `N > 64` is rejected by `static_assert` in the source. -/
def smallestUnsignedBytes (n : Nat) : Nat :=
  if n ≤ 8 then 1 else if n ≤ 16 then 2 else if n ≤ 32 then 4 else 8

mutual
inductive Field where
  | aligned : List Nat → Field
  | bitf : Nat → Nat → Field
  | constBitf : Nat → Nat → Field
  | packet : FieldList → Field
deriving DecidableEq, Repr

inductive FieldList where
  | nil : FieldList
  | cons : Field → FieldList → FieldList
deriving DecidableEq, Repr
end

mutual
/-- `_detail::add_field_size_bits`: an aligned field (including a nested
`Field<Packet>`) first rounds the aggregate up to the next byte boundary
(`bits_to_contain(bytes_to_contain(aggregate))`) and then adds its
`kSizeBits`; a `BitField`/`ConstBitField` adds its width directly. -/
def addFieldSizeBits (aggregate : Nat) : Field → Nat
  | .aligned bytes => math.bits_to_contain (math.bytes_to_contain aggregate) + bytes.length * 8
  | .bitf n _ => aggregate + n
  | .constBitf n _ => aggregate + n
  | .packet fs =>
    math.bits_to_contain (math.bytes_to_contain aggregate)
      + math.next_boundary_bit_pos (FieldList.accumSizeBits fs 0)

/-- `_detail::accumulate_packet_field_size_bits_recursive::Do`. -/
def FieldList.accumSizeBits : FieldList → Nat → Nat
  | .nil, aggregate => aggregate
  | .cons f fs, aggregate => FieldList.accumSizeBits fs (addFieldSizeBits aggregate f)
end

/-- `_detail::packet_size_bits` = `Packet::kSizeBits`: fold the field sizes
from zero, then pad to the next byte boundary. -/
def FieldList.packetSizeBits (fs : FieldList) : Nat :=
  math.next_boundary_bit_pos (FieldList.accumSizeBits fs 0)

/-- `Packet::kSizeBytes` / `footprint_size_bytes`. -/
def FieldList.packetSizeBytes (fs : FieldList) : Nat :=
  math.bytes_to_contain (FieldList.packetSizeBits fs)

/-- `footprint_size_bits` of one field. -/
def Field.sizeBits : Field → Nat
  | .aligned bytes => bytes.length * 8
  | .bitf n _ => n
  | .constBitf n _ => n
  | .packet fs => FieldList.packetSizeBits fs

/-- `footprint_size_bytes` of one field. -/
def Field.sizeBytes (f : Field) : Nat := math.bytes_to_contain f.sizeBits

/-! ## Single-value codec (Core/Data/Encode.hpp, Core/Data/Decode.hpp) -/

/-- `memcpy(&buffer[start], src, src.length)`. -/
def writeBytes (buf : List Nat) (start : Nat) (src : List Nat) : List Nat :=
  buf.take start ++ src ++ buf.drop (start + src.length)

/-- `memcpy(dest, &buffer[start], len)`. -/
def readBytes (buf : List Nat) (start len : Nat) : List Nat :=
  (buf.drop start).take len

/-- `shmit::data::encode<T>` for an arithmetic/pointer `T` whose value has
object representation `objBytes`: round the cursor up to a byte boundary,
guard against overflow, copy the bytes, and set the cursor past the value. -/
def encodeValue (objBytes : List Nat) (buf : List Nat) (c : Nat) :
    BinaryResult × List Nat × Nat :=
  let startByte := math.bytes_to_contain c
  if startByte + objBytes.length > buf.length then (.failure, buf, c)
  else (.success, writeBytes buf startByte objBytes,
        math.bits_to_contain startByte + objBytes.length * 8)

/-- `shmit::data::decode<T>`: the symmetric read; the returned list is the
new object representation of the output value. -/
def decodeValue (buf : List Nat) (c : Nat) (objBytes : List Nat) :
    BinaryResult × List Nat × Nat :=
  let startByte := math.bytes_to_contain c
  if startByte + objBytes.length > buf.length then (.failure, objBytes, c)
  else (.success, readBytes buf startByte objBytes.length,
        math.bits_to_contain startByte + objBytes.length * 8)

/-! ## Field and Packet codec (ShmitCore/Data/Field.hpp encode/decode
overloads, Core/Data/Footprint.hpp Packet encode/decode,
Core/Data/Primitives.hpp `encode_packet_fields_recursive` /
`decode_packet_fields_recursive`).

`encodeField`/`decodeField` are the per-field `encode`/`decode` overload
dispatch; the `packet` case is the `Packet`-level friend function that a
nested `Field<Packet>` forwards to.  Each returns the result code, the
buffer (resp. the updated field), and the cursor; the cursor is written
only on the paths where the C++ assigns `offset_bits`. -/

mutual
def encodeField : Field → List Nat → Nat → BinaryResult × List Nat × Nat
  | .aligned bytes, buf, c => encodeValue bytes buf c
  | .bitf n v, buf, c =>
    if c + n > math.bits_to_contain buf.length then (.failure, buf, c)
    else (.success, encode_bits buf (natToBytesLE (smallestUnsignedBytes n) v) c n, c + n)
  | .constBitf n v, buf, c =>
    if c + n > math.bits_to_contain buf.length then (.failure, buf, c)
    else (.success, encode_bits buf (natToBytesLE (smallestUnsignedBytes n) v) c n, c + n)
  | .packet fs, buf, c =>
    let startBytes := math.bytes_to_contain c
    if startBytes + FieldList.packetSizeBytes fs > buf.length then (.failure, buf, c)
    else
      match encodeFields fs buf (math.bits_to_contain startBytes) with
      | (.success, bufOut, localOut) =>
        (.success, bufOut, math.next_boundary_bit_pos localOut)
      | (.failure, bufOut, _) => (.failure, bufOut, c)

def encodeFields : FieldList → List Nat → Nat → BinaryResult × List Nat × Nat
  | .nil, buf, c => (.success, buf, c)
  | .cons f fs, buf, c =>
    match encodeField f buf c with
    | (.success, bufNext, cNext) => encodeFields fs bufNext cNext
    | r => r
end

mutual
def decodeField : Field → List Nat → Nat → BinaryResult × Field × Nat
  | .aligned bytes, buf, c =>
    match decodeValue buf c bytes with
    | (r, bytesOut, cOut) => (r, .aligned bytesOut, cOut)
  | .bitf n v, buf, c =>
    if c + n > math.bits_to_contain buf.length then (.failure, .bitf n v, c)
    else (.success,
          .bitf n (bytesToNat (decode_bits (natToBytesLE (smallestUnsignedBytes n) v) buf c n)),
          c + n)
  | .constBitf n v, _, c => (.success, .constBitf n v, c + n)
  | .packet fs, buf, c =>
    let startBytes := math.bytes_to_contain c
    if startBytes + FieldList.packetSizeBytes fs > buf.length then (.failure, .packet fs, c)
    else
      match decodeFields fs buf (math.bits_to_contain startBytes) with
      | (.success, fsOut, localOut) =>
        (.success, .packet fsOut, math.next_boundary_bit_pos localOut)
      | (.failure, fsOut, _) => (.failure, .packet fsOut, c)

def decodeFields : FieldList → List Nat → Nat → BinaryResult × FieldList × Nat
  | .nil, _, c => (.success, .nil, c)
  | .cons f fs, buf, c =>
    match decodeField f buf c with
    | (.success, fOut, cNext) =>
      match decodeFields fs buf cNext with
      | (r, fsOut, cOut) => (r, .cons fOut fsOut, cOut)
    | (.failure, fOut, cOut) => (.failure, .cons fOut fs, cOut)
end

/-- Top-level `shmit::data::encode(packet, buffer, offset_bits)`
(Footprint.hpp): byte-align the start, guard the whole footprint against
the buffer size, run the recursive field encoding, and on success set the
caller's cursor to the padded tail boundary. -/
def encodePacket (fs : FieldList) (buf : List Nat) (c : Nat) :
    BinaryResult × List Nat × Nat :=
  let startBytes := math.bytes_to_contain c
  if startBytes + FieldList.packetSizeBytes fs > buf.length then (.failure, buf, c)
  else
    match encodeFields fs buf (math.bits_to_contain startBytes) with
    | (.success, bufOut, localOut) =>
      (.success, bufOut, math.next_boundary_bit_pos localOut)
    | (.failure, bufOut, _) => (.failure, bufOut, c)

/-- Top-level `shmit::data::decode(buffer, offset_bits, packet)`. -/
def decodePacket (fs : FieldList) (buf : List Nat) (c : Nat) :
    BinaryResult × FieldList × Nat :=
  let startBytes := math.bytes_to_contain c
  if startBytes + FieldList.packetSizeBytes fs > buf.length then (.failure, fs, c)
  else
    match decodeFields fs buf (math.bits_to_contain startBytes) with
    | (.success, fsOut, localOut) =>
      (.success, fsOut, math.next_boundary_bit_pos localOut)
    | (.failure, fsOut, _) => (.failure, fsOut, c)

theorem encodeField_packet (fs : FieldList) (buf : List Nat) (c : Nat) :
    encodeField (.packet fs) buf c = encodePacket fs buf c := by
  simp only [encodeField, encodePacket]

theorem decodeField_packet (fs : FieldList) (buf : List Nat) (c : Nat) :
    decodeField (.packet fs) buf c
      = ((decodePacket fs buf c).1, .packet (decodePacket fs buf c).2.1,
         (decodePacket fs buf c).2.2) := by
  simp only [decodeField, decodePacket]
  by_cases h : math.bytes_to_contain c + FieldList.packetSizeBytes fs > buf.length
  · rw [if_pos h, if_pos h]
  · rw [if_neg h, if_neg h]
    rcases hfs : decodeFields fs buf (math.bits_to_contain (math.bytes_to_contain c))
      with ⟨r, fsOut, cOut⟩
    cases r <;> simp

/-! ## Session adapters (IO/Session/Ingress.hpp, IO/Session/Egress.hpp)

The Inbound/Outbound collaborators are opaque: a session is modelled by the
byte count it reports available, the result of its one transfer call, and
(for Inbound) the bytes it deposits into the span.  `Get`/`Put` return,
besides the result, the list of `Request`/`Post` invocations they issued so
that "without invoking request" and "exactly one request" are observable. -/

structure Inbound where
  inputBytesAvailable : Nat
  requestResult : BinaryResult
  requestBytes : List Nat

structure Outbound where
  outputBytesAvailable : Nat
  postResult : BinaryResult

/-- `Ingress<T>::Get(data, timeout)`: preflight the available byte count,
zero a stack buffer of `footprint_size_bytes` bytes, issue one `Request`
with the caller's timeout, then decode from cursor 0 into `data`.  The
value returned is the (possibly partially) decoded target; the third
component lists the `(span size, timeout)` of every `Request` issued. -/
def ingressGet (session : Inbound) (target : Field) (timeout : Int) :
    BinaryResult × Field × List (Nat × Int) :=
  let kDataSizeBytes := target.sizeBytes
  if session.inputBytesAvailable < kDataSizeBytes then (.failure, target, [])
  else
    -- the session fills a prefix of the zeroed span; untouched bytes stay 0
    let buf1 := (session.requestBytes ++ List.replicate kDataSizeBytes 0).take kDataSizeBytes
    if session.requestResult.IsFailure then (.failure, target, [(kDataSizeBytes, timeout)])
    else
      match decodeField target buf1 0 with
      | (r, decoded, _) =>
        (if r = .success then .success else .failure, decoded, [(kDataSizeBytes, timeout)])

/-- `Egress<T>::Put(data, duration)`: preflight the available byte count,
zero a stack buffer, encode from cursor 0, subtract the elapsed encoding
time from the timeout (zero-clamped), and issue one `Post`.  `elapsedUs` is
the clock difference measured around the encode step; the second component
lists the `(bytes, timeout)` of every `Post` issued. -/
def egressPut (session : Outbound) (value : Field) (timeout elapsedUs : Int) :
    BinaryResult × List (List Nat × Int) :=
  let kDataSizeBytes := value.sizeBytes
  if session.outputBytesAvailable < kDataSizeBytes then (.failure, [])
  else
    match encodeField value (List.replicate kDataSizeBytes 0) 0 with
    | (.failure, _, _) => (.failure, [])
    | (.success, encoded, _) =>
      let remaining := if elapsedUs > timeout then 0 else timeout - elapsedUs
      (if session.postResult.IsSuccess then .success else .failure, [(encoded, remaining)])

/-! ## Specification-level helpers used by the theorems -/

/-! Well-formedness of a schema value as the C++ type system enforces it:
object-representation bytes are bytes, and a `BitField`/`ConstBitField`
width passes the `static_assert(BitSizeV <= 64)`. -/
mutual
def Field.wfB : Field → Bool
  | .aligned bytes => bytes.all (fun b => decide (b < 256))
  | .bitf n _ => decide (n ≤ 64)
  | .constBitf n _ => decide (n ≤ 64)
  | .packet fs => FieldList.wfLB fs

def FieldList.wfLB : FieldList → Bool
  | .nil => true
  | .cons f fs => Field.wfB f && FieldList.wfLB fs
end

/-! Every `BitField`/`ConstBitField` value fits in its declared width. -/
mutual
def Field.inRangeB : Field → Bool
  | .aligned _ => true
  | .bitf n v => decide (v < 2 ^ n)
  | .constBitf n v => decide (v < 2 ^ n)
  | .packet fs => FieldList.inRangeLB fs

def FieldList.inRangeLB : FieldList → Bool
  | .nil => true
  | .cons f fs => Field.inRangeB f && FieldList.inRangeLB fs
end

/-! A decode target of the same schema with all mutable storage zeroed
(the "fresh packet" of the round-trip). -/
mutual
def Field.zeroOf : Field → Field
  | .aligned bytes => .aligned (List.replicate bytes.length 0)
  | .bitf n _ => .bitf n 0
  | .constBitf n _ => .constBitf n 0
  | .packet fs => .packet (FieldList.zeroOfL fs)

def FieldList.zeroOfL : FieldList → FieldList
  | .nil => .nil
  | .cons f fs => .cons (Field.zeroOf f) (FieldList.zeroOfL fs)
end

/-! The value decoding produces into a zeroed target when the buffer holds
the encoding of `f`: aligned bytes are recovered exactly, a `BitField`
keeps only its low `n` bits, and a `ConstBitField` keeps the target's
(zero) storage. -/
mutual
def Field.canonicalDecode : Field → Field
  | .aligned bytes => .aligned bytes
  | .bitf n v => .bitf n (v % 2 ^ n)
  | .constBitf n _ => .constBitf n 0
  | .packet fs => .packet (FieldList.canonicalDecodeL fs)

def FieldList.canonicalDecodeL : FieldList → FieldList
  | .nil => .nil
  | .cons f fs => .cons (Field.canonicalDecode f) (FieldList.canonicalDecodeL fs)
end

/-! Field-value equality that ignores `ConstBitField` values (schema widths
must still agree). -/
mutual
def Field.matchIC : Field → Field → Bool
  | .aligned b1, .aligned b2 => decide (b1 = b2)
  | .bitf n1 v1, .bitf n2 v2 => decide (n1 = n2) && decide (v1 = v2)
  | .constBitf n1 _, .constBitf n2 _ => decide (n1 = n2)
  | .packet fs1, .packet fs2 => FieldList.matchICL fs1 fs2
  | _, _ => false

def FieldList.matchICL : FieldList → FieldList → Bool
  | .nil, .nil => true
  | .cons f1 fs1, .cons f2 fs2 => Field.matchIC f1 f2 && FieldList.matchICL fs1 fs2
  | _, _ => false
end

/-! The `ConstBitField` values stored in a field, in declaration order. -/
mutual
def Field.constVals : Field → List Nat
  | .aligned _ => []
  | .bitf _ _ => []
  | .constBitf _ v => [v]
  | .packet fs => FieldList.constValsL fs

def FieldList.constValsL : FieldList → List Nat
  | .nil => []
  | .cons f fs => Field.constVals f ++ FieldList.constValsL fs
end

/-! Numeric contribution of a field's encoding to the buffer value when
encoding starts at cursor `c` over a zero background: aligned data lands at
the padded byte boundary, bit fields land at the cursor itself. -/
mutual
def Field.contrib : Field → Nat → Nat
  | .aligned bytes, c => bytesToNat bytes * 2 ^ math.next_boundary_bit_pos c
  | .bitf n v, c => v % 2 ^ n * 2 ^ c
  | .constBitf n v, c => v % 2 ^ n * 2 ^ c
  | .packet fs, c => FieldList.contribList fs (math.next_boundary_bit_pos c)

def FieldList.contribList : FieldList → Nat → Nat
  | .nil, _ => 0
  | .cons f fs, c => Field.contrib f c + FieldList.contribList fs (addFieldSizeBits c f)
end

/-! ## Structural lemmas about sizes and cursors -/

theorem addFieldSizeBits_shift {a : Nat} (ha : 8 ∣ a) (x : Nat) :
    ∀ f : Field, addFieldSizeBits (a + x) f = a + addFieldSizeBits x f
  | .aligned bytes => by
    simp only [addFieldSizeBits, math.bits_to_contain, ← math.next_boundary_eq_mul]
    rw [math.next_boundary_add_of_dvd ha]
    ring
  | .bitf n _ => by simp only [addFieldSizeBits]; ring
  | .constBitf n _ => by simp only [addFieldSizeBits]; ring
  | .packet fs => by
    simp only [addFieldSizeBits, math.bits_to_contain, ← math.next_boundary_eq_mul]
    rw [math.next_boundary_add_of_dvd ha]
    ring

theorem accumSizeBits_shift {a : Nat} (ha : 8 ∣ a) :
    ∀ (fs : FieldList) (x : Nat),
      FieldList.accumSizeBits fs (a + x) = a + FieldList.accumSizeBits fs x
  | .nil, _ => rfl
  | .cons f fs, x => by
    show FieldList.accumSizeBits fs (addFieldSizeBits (a + x) f)
        = a + FieldList.accumSizeBits fs (addFieldSizeBits x f)
    rw [addFieldSizeBits_shift ha x f, accumSizeBits_shift ha fs _]

theorem le_addFieldSizeBits (x : Nat) : ∀ f : Field, x ≤ addFieldSizeBits x f
  | .aligned bytes => by
    simp only [addFieldSizeBits, math.bits_to_contain, ← math.next_boundary_eq_mul]
    have := math.le_next_boundary x
    omega
  | .bitf n _ => by simp only [addFieldSizeBits]; omega
  | .constBitf n _ => by simp only [addFieldSizeBits]; omega
  | .packet fs => by
    simp only [addFieldSizeBits, math.bits_to_contain, ← math.next_boundary_eq_mul]
    have := math.le_next_boundary x
    omega

theorem le_accumSizeBits : ∀ (fs : FieldList) (x : Nat), x ≤ FieldList.accumSizeBits fs x
  | .nil, _ => Nat.le_refl _
  | .cons f fs, x =>
    Nat.le_trans (le_addFieldSizeBits x f) (le_accumSizeBits fs (addFieldSizeBits x f))

theorem packetSizeBits_eq_mul (fs : FieldList) :
    FieldList.packetSizeBits fs = 8 * FieldList.packetSizeBytes fs := by
  unfold FieldList.packetSizeBytes FieldList.packetSizeBits
  rw [math.next_boundary_eq_mul, math.bytes_to_contain_mul8]
  ring

theorem accum_le_of_guard {fs : FieldList} {buf : List Nat} {c : Nat}
    (h : math.bytes_to_contain c + FieldList.packetSizeBytes fs ≤ buf.length) :
    FieldList.accumSizeBits fs (math.bits_to_contain (math.bytes_to_contain c))
      ≤ 8 * buf.length := by
  have hsh := accumSizeBits_shift (a := math.bits_to_contain (math.bytes_to_contain c))
    (by unfold math.bits_to_contain; exact Dvd.intro_left _ rfl) fs 0
  rw [Nat.add_zero] at hsh
  rw [hsh]
  have h1 : FieldList.accumSizeBits fs 0 ≤ FieldList.packetSizeBits fs :=
    math.le_next_boundary _
  have h2 := packetSizeBits_eq_mul fs
  unfold math.bits_to_contain
  omega

/-- `static_assert(BitSizeV <= 64)` guarantees the stored value type holds
the declared width. -/
theorem le_smallestUnsignedBytes {n : Nat} (h : n ≤ 64) :
    n ≤ 8 * smallestUnsignedBytes n := by
  unfold smallestUnsignedBytes
  split_ifs <;> omega

theorem bytes_to_contain_le_smallestUnsignedBytes {n : Nat} (h : n ≤ 64) :
    math.bytes_to_contain n ≤ smallestUnsignedBytes n := by
  rw [math.bytes_to_contain_eq]
  unfold smallestUnsignedBytes
  split_ifs <;> omega

/-! Sizes depend only on the schema, not on the stored values. -/

mutual
theorem addFieldSizeBits_zeroOf : ∀ (c : Nat) (f : Field),
    addFieldSizeBits c (Field.zeroOf f) = addFieldSizeBits c f
  | _, .aligned bytes => by simp [Field.zeroOf, addFieldSizeBits]
  | _, .bitf n _ => by simp [Field.zeroOf, addFieldSizeBits]
  | _, .constBitf n _ => by simp [Field.zeroOf, addFieldSizeBits]
  | c, .packet fs => by
    simp only [Field.zeroOf, addFieldSizeBits]
    rw [accumSizeBits_zeroOf fs 0]

theorem accumSizeBits_zeroOf : ∀ (fs : FieldList) (c : Nat),
    FieldList.accumSizeBits (FieldList.zeroOfL fs) c = FieldList.accumSizeBits fs c
  | .nil, _ => rfl
  | .cons f fs, c => by
    show FieldList.accumSizeBits (FieldList.zeroOfL fs) (addFieldSizeBits c (Field.zeroOf f))
        = FieldList.accumSizeBits fs (addFieldSizeBits c f)
    rw [addFieldSizeBits_zeroOf c f, accumSizeBits_zeroOf fs _]
end

theorem packetSizeBytes_zeroOf (fs : FieldList) :
    FieldList.packetSizeBytes (FieldList.zeroOfL fs) = FieldList.packetSizeBytes fs := by
  unfold FieldList.packetSizeBytes FieldList.packetSizeBits
  rw [accumSizeBits_zeroOf fs 0]

theorem encodeBitsLoop_length (o : Nat) :
    ∀ (src : List Nat) (d n : Nat) (buf : List Nat),
      (encodeBitsLoop o src d n buf).length = buf.length := by
  intro src
  induction src with
  | nil => intro d n buf; cases n <;> rfl
  | cons s srcRest ih =>
    intro d n buf
    cases n with
    | zero => rfl
    | succ sz =>
      simp only [encodeBitsLoop]
      by_cases hc : 0 < o ∧ 0 < sz + 1 - min (8 - o) (sz + 1)
      · rw [if_pos hc, ih _ _ _]
        simp
      · rw [if_neg hc, ih _ _ _]
        simp

theorem encode_bits_length (buf src : List Nat) (offsetBits sizeBits : Nat) :
    (encode_bits buf src offsetBits sizeBits).length = buf.length := by
  unfold encode_bits
  exact encodeBitsLoop_length _ _ _ _ _

theorem writeBytes_length {buf src : List Nat} {start : Nat}
    (h : start + src.length ≤ buf.length) :
    (writeBytes buf start src).length = buf.length := by
  unfold writeBytes
  simp
  omega

/-! ## Success and cursor tracking

When the whole footprint fits (which the top-level guard checks), every
recursive sub-call succeeds, and on success the cursor advances by exactly
the `add_field_size_bits` fold — the same fold that defines
`packet_size_bits`. -/

mutual
theorem encodeField_success : ∀ (f : Field) (buf : List Nat) (c : Nat),
    addFieldSizeBits c f ≤ 8 * buf.length →
    (encodeField f buf c).1 = .success ∧
    (encodeField f buf c).2.2 = addFieldSizeBits c f ∧
    (encodeField f buf c).2.1.length = buf.length
  | .aligned bytes, buf, c, h => by
    simp only [encodeField, encodeValue, addFieldSizeBits, math.bits_to_contain] at h ⊢
    have hguard : ¬ math.bytes_to_contain c + bytes.length > buf.length := by omega
    rw [if_neg hguard]
    refine ⟨rfl, rfl, writeBytes_length (by omega)⟩
  | .bitf n v, buf, c, h => by
    simp only [encodeField, addFieldSizeBits, math.bits_to_contain] at h ⊢
    have hguard : ¬ c + n > buf.length * 8 := by omega
    rw [if_neg hguard]
    exact ⟨rfl, rfl, encode_bits_length _ _ _ _⟩
  | .constBitf n v, buf, c, h => by
    simp only [encodeField, addFieldSizeBits, math.bits_to_contain] at h ⊢
    have hguard : ¬ c + n > buf.length * 8 := by omega
    rw [if_neg hguard]
    exact ⟨rfl, rfl, encode_bits_length _ _ _ _⟩
  | .packet fs, buf, c, h => by
    have hpm := packetSizeBits_eq_mul fs
    have haf : addFieldSizeBits c (.packet fs)
        = math.bits_to_contain (math.bytes_to_contain c) + FieldList.packetSizeBits fs := rfl
    have hguard : ¬ math.bytes_to_contain c + FieldList.packetSizeBytes fs > buf.length := by
      rw [haf] at h
      simp only [math.bits_to_contain] at h
      omega
    have hguard2 : math.bytes_to_contain c + FieldList.packetSizeBytes fs ≤ buf.length := by
      omega
    have hin := encodeFields_success fs buf
      (math.bits_to_contain (math.bytes_to_contain c)) (accum_le_of_guard hguard2)
    simp only [encodeField]
    rw [if_neg hguard]
    rcases hres : encodeFields fs buf (math.bits_to_contain (math.bytes_to_contain c))
      with ⟨r, buf1, c1⟩
    rw [hres] at hin
    obtain ⟨hr, hc1, hlen1⟩ := hin
    simp only at hr hc1 hlen1
    subst hr
    refine ⟨rfl, ?_, hlen1⟩
    show math.next_boundary_bit_pos c1
        = addFieldSizeBits c (.packet fs)
    rw [hc1, haf]
    have hsh := accumSizeBits_shift (a := math.bits_to_contain (math.bytes_to_contain c))
      (by unfold math.bits_to_contain; exact Dvd.intro_left _ rfl) fs 0
    rw [Nat.add_zero] at hsh
    rw [hsh, math.next_boundary_add_of_dvd
      (by unfold math.bits_to_contain; exact Dvd.intro_left _ rfl)]
    rfl

theorem encodeFields_success : ∀ (fs : FieldList) (buf : List Nat) (c : Nat),
    FieldList.accumSizeBits fs c ≤ 8 * buf.length →
    (encodeFields fs buf c).1 = .success ∧
    (encodeFields fs buf c).2.2 = FieldList.accumSizeBits fs c ∧
    (encodeFields fs buf c).2.1.length = buf.length
  | .nil, buf, c, _ => by simp [encodeFields, FieldList.accumSizeBits]
  | .cons f fs, buf, c, h => by
    have hacc : FieldList.accumSizeBits (.cons f fs) c
        = FieldList.accumSizeBits fs (addFieldSizeBits c f) := rfl
    rw [hacc] at h ⊢
    have hroom : addFieldSizeBits c f ≤ 8 * buf.length :=
      Nat.le_trans (le_accumSizeBits fs _) h
    have hf := encodeField_success f buf c hroom
    rcases hres : encodeField f buf c with ⟨r, buf1, c1⟩
    rw [hres] at hf
    obtain ⟨hr, hc1, hlen1⟩ := hf
    simp only at hr hc1 hlen1
    subst hr
    subst hc1
    have hrec := encodeFields_success fs buf1 (addFieldSizeBits c f)
      (by rw [hlen1]; exact h)
    simp only [encodeFields]
    rw [hres]
    simp only
    exact ⟨hrec.1, hrec.2.1, by rw [hrec.2.2, hlen1]⟩
end

mutual
theorem decodeField_success : ∀ (t : Field) (buf : List Nat) (c : Nat),
    addFieldSizeBits c t ≤ 8 * buf.length →
    (decodeField t buf c).1 = .success ∧
    (decodeField t buf c).2.2 = addFieldSizeBits c t
  | .aligned bytes, buf, c, h => by
    simp only [decodeField, decodeValue, addFieldSizeBits, math.bits_to_contain] at h ⊢
    have hguard : ¬ math.bytes_to_contain c + bytes.length > buf.length := by omega
    rw [if_neg hguard]
    exact ⟨rfl, rfl⟩
  | .bitf n v, buf, c, h => by
    simp only [decodeField, addFieldSizeBits, math.bits_to_contain] at h ⊢
    have hguard : ¬ c + n > buf.length * 8 := by omega
    rw [if_neg hguard]
    exact ⟨rfl, rfl⟩
  | .constBitf n v, buf, c, h => ⟨rfl, rfl⟩
  | .packet fs, buf, c, h => by
    have hpm := packetSizeBits_eq_mul fs
    have haf : addFieldSizeBits c (.packet fs)
        = math.bits_to_contain (math.bytes_to_contain c) + FieldList.packetSizeBits fs := rfl
    have hguard : ¬ math.bytes_to_contain c + FieldList.packetSizeBytes fs > buf.length := by
      rw [haf] at h
      simp only [math.bits_to_contain] at h
      omega
    have hguard2 : math.bytes_to_contain c + FieldList.packetSizeBytes fs ≤ buf.length := by
      omega
    have hin := decodeFields_success fs buf
      (math.bits_to_contain (math.bytes_to_contain c)) (accum_le_of_guard hguard2)
    simp only [decodeField]
    rw [if_neg hguard]
    rcases hres : decodeFields fs buf (math.bits_to_contain (math.bytes_to_contain c))
      with ⟨r, fs1, c1⟩
    rw [hres] at hin
    obtain ⟨hr, hc1⟩ := hin
    simp only at hr hc1
    subst hr
    refine ⟨rfl, ?_⟩
    show math.next_boundary_bit_pos c1 = addFieldSizeBits c (.packet fs)
    rw [hc1, haf]
    have hsh := accumSizeBits_shift (a := math.bits_to_contain (math.bytes_to_contain c))
      (by unfold math.bits_to_contain; exact Dvd.intro_left _ rfl) fs 0
    rw [Nat.add_zero] at hsh
    rw [hsh, math.next_boundary_add_of_dvd
      (by unfold math.bits_to_contain; exact Dvd.intro_left _ rfl)]
    rfl

theorem decodeFields_success : ∀ (ts : FieldList) (buf : List Nat) (c : Nat),
    FieldList.accumSizeBits ts c ≤ 8 * buf.length →
    (decodeFields ts buf c).1 = .success ∧
    (decodeFields ts buf c).2.2 = FieldList.accumSizeBits ts c
  | .nil, buf, c, _ => by simp [decodeFields, FieldList.accumSizeBits]
  | .cons t ts, buf, c, h => by
    have hacc : FieldList.accumSizeBits (.cons t ts) c
        = FieldList.accumSizeBits ts (addFieldSizeBits c t) := rfl
    rw [hacc] at h ⊢
    have hroom : addFieldSizeBits c t ≤ 8 * buf.length :=
      Nat.le_trans (le_accumSizeBits ts _) h
    have hf := decodeField_success t buf c hroom
    rcases hres : decodeField t buf c with ⟨r, t1, c1⟩
    rw [hres] at hf
    obtain ⟨hr, hc1⟩ := hf
    simp only at hr hc1
    subst hr
    have hrec := decodeFields_success ts buf c1 (by rw [hc1]; exact h)
    simp only [decodeFields]
    rw [hres]
    simp only
    rcases hres2 : decodeFields ts buf c1 with ⟨r2, ts2, c2⟩
    rw [hres2] at hrec
    obtain ⟨hr2, hc2⟩ := hrec
    simp only at hr2 hc2
    subst hr2
    rw [hc1] at hc2
    exact ⟨rfl, hc2⟩
end

/-! ## Buffer contents after encoding -/

theorem allBytes_of_all {l : List Nat}
    (h : l.all (fun b => decide (b < 256)) = true) : allBytes l := by
  intro b hb
  exact of_decide_eq_true (List.all_eq_true.mp h b hb)

theorem pow_le_pow_bits {a b : Nat} (h : a ≤ b) : (2 : Nat) ^ a ≤ 2 ^ b :=
  Nat.pow_le_pow_right (by norm_num) h

theorem btc_bits (c : Nat) :
    math.bits_to_contain (math.bytes_to_contain c) = math.next_boundary_bit_pos c := rfl

mutual
theorem contrib_lt : ∀ (f : Field) (c X : Nat), Field.wfB f = true → X < 2 ^ c →
    X + Field.contrib f c < 2 ^ addFieldSizeBits c f
  | .aligned bytes, c, X, hw, hX => by
    have hbytes : allBytes bytes := allBytes_of_all hw
    have hB := bytesToNat_lt hbytes
    have hXn : X < 2 ^ math.next_boundary_bit_pos c :=
      lt_of_lt_of_le hX (pow_le_pow_bits (math.le_next_boundary c))
    show X + bytesToNat bytes * 2 ^ math.next_boundary_bit_pos c
        < 2 ^ (math.bits_to_contain (math.bytes_to_contain c) + bytes.length * 8)
    rw [btc_bits, Nat.pow_add]
    have h8 : (2 : Nat) ^ (bytes.length * 8) = 2 ^ (8 * bytes.length) := by
      rw [Nat.mul_comm]
    rw [h8]
    calc X + bytesToNat bytes * 2 ^ math.next_boundary_bit_pos c
        < 2 ^ math.next_boundary_bit_pos c
          + bytesToNat bytes * 2 ^ math.next_boundary_bit_pos c := by omega
      _ = (bytesToNat bytes + 1) * 2 ^ math.next_boundary_bit_pos c := by ring
      _ ≤ 2 ^ (8 * bytes.length) * 2 ^ math.next_boundary_bit_pos c :=
          Nat.mul_le_mul_right _ (by omega)
      _ = 2 ^ math.next_boundary_bit_pos c * 2 ^ (8 * bytes.length) := by ring
  | .bitf n v, c, X, _, hX => by
    show X + v % 2 ^ n * 2 ^ c < 2 ^ (c + n)
    have hv : v % 2 ^ n < 2 ^ n := Nat.mod_lt _ (Nat.pos_pow_of_pos n (by norm_num))
    rw [Nat.pow_add]
    calc X + v % 2 ^ n * 2 ^ c < 2 ^ c + v % 2 ^ n * 2 ^ c := by omega
      _ = (v % 2 ^ n + 1) * 2 ^ c := by ring
      _ ≤ 2 ^ n * 2 ^ c := Nat.mul_le_mul_right _ (by omega)
      _ = 2 ^ c * 2 ^ n := by ring
  | .constBitf n v, c, X, _, hX => by
    show X + v % 2 ^ n * 2 ^ c < 2 ^ (c + n)
    have hv : v % 2 ^ n < 2 ^ n := Nat.mod_lt _ (Nat.pos_pow_of_pos n (by norm_num))
    rw [Nat.pow_add]
    calc X + v % 2 ^ n * 2 ^ c < 2 ^ c + v % 2 ^ n * 2 ^ c := by omega
      _ = (v % 2 ^ n + 1) * 2 ^ c := by ring
      _ ≤ 2 ^ n * 2 ^ c := Nat.mul_le_mul_right _ (by omega)
      _ = 2 ^ c * 2 ^ n := by ring
  | .packet fs, c, X, hw, hX => by
    have hXn : X < 2 ^ math.next_boundary_bit_pos c :=
      lt_of_lt_of_le hX (pow_le_pow_bits (math.le_next_boundary c))
    have hrec := contribList_lt fs (math.next_boundary_bit_pos c) X hw hXn
    show X + FieldList.contribList fs (math.next_boundary_bit_pos c)
        < 2 ^ (math.bits_to_contain (math.bytes_to_contain c)
            + math.next_boundary_bit_pos (FieldList.accumSizeBits fs 0))
    apply lt_of_lt_of_le hrec
    apply pow_le_pow_bits
    have hsh := accumSizeBits_shift (a := math.next_boundary_bit_pos c)
      (math.dvd_next_boundary c) fs 0
    rw [Nat.add_zero] at hsh
    rw [hsh, btc_bits]
    have h1 : FieldList.accumSizeBits fs 0
        ≤ math.next_boundary_bit_pos (FieldList.accumSizeBits fs 0) :=
      math.le_next_boundary _
    omega

theorem contribList_lt : ∀ (fs : FieldList) (c X : Nat),
    FieldList.wfLB fs = true → X < 2 ^ c →
    X + FieldList.contribList fs c < 2 ^ FieldList.accumSizeBits fs c
  | .nil, c, X, _, hX => by
    show X + 0 < 2 ^ c
    omega
  | .cons f fs, c, X, hw, hX => by
    rw [FieldList.wfLB, Bool.and_eq_true] at hw
    have h1 := contrib_lt f c X hw.1 hX
    have h2 := contribList_lt fs (addFieldSizeBits c f) (X + Field.contrib f c) hw.2 h1
    show X + (Field.contrib f c + FieldList.contribList fs (addFieldSizeBits c f))
        < 2 ^ FieldList.accumSizeBits fs (addFieldSizeBits c f)
    omega
end

mutual
theorem pow_dvd_contrib : ∀ (f : Field) (c : Nat), 2 ^ c ∣ Field.contrib f c
  | .aligned bytes, c => by
    show 2 ^ c ∣ bytesToNat bytes * 2 ^ math.next_boundary_bit_pos c
    exact Dvd.dvd.mul_left (pow_dvd_pow 2 (math.le_next_boundary c)) _
  | .bitf n v, c => Dvd.intro_left _ rfl
  | .constBitf n v, c => Dvd.intro_left _ rfl
  | .packet fs, c => by
    show 2 ^ c ∣ FieldList.contribList fs (math.next_boundary_bit_pos c)
    exact dvd_trans (pow_dvd_pow 2 (math.le_next_boundary c))
      (pow_dvd_contribList fs (math.next_boundary_bit_pos c))

theorem pow_dvd_contribList : ∀ (fs : FieldList) (c : Nat),
    2 ^ c ∣ FieldList.contribList fs c
  | .nil, _ => Dvd.intro 0 rfl
  | .cons f fs, c => by
    show 2 ^ c ∣ Field.contrib f c + FieldList.contribList fs (addFieldSizeBits c f)
    exact dvd_add (pow_dvd_contrib f c)
      (dvd_trans (pow_dvd_pow 2 (le_addFieldSizeBits c f))
        (pow_dvd_contribList fs (addFieldSizeBits c f)))
end

theorem writeBytes_val {buf src : List Nat} {start : Nat}
    (hb : allBytes buf) (hs : allBytes src)
    (hlen : start + src.length ≤ buf.length)
    (hinv : bytesToNat buf < 2 ^ (8 * start)) :
    allBytes (writeBytes buf start src) ∧
    bytesToNat (writeBytes buf start src)
      = bytesToNat buf + bytesToNat src * 2 ^ (8 * start) := by
  unfold writeBytes
  constructor
  · intro b hmem
    rcases List.mem_append.mp hmem with h1 | h2
    · rcases List.mem_append.mp h1 with h3 | h4
      · exact hb b (List.take_subset _ _ h3)
      · exact hs b h4
    · exact hb b (List.drop_subset _ _ h2)
  · rw [List.append_assoc, bytesToNat_append, bytesToNat_append]
    have hstartle : start ≤ buf.length := by omega
    have htlen : (buf.take start).length = start := by
      simp [List.length_take]
      omega
    have htake : bytesToNat (buf.take start) = bytesToNat buf := by
      rw [bytesToNat_take hb]
      exact Nat.mod_eq_of_lt hinv
    have hdrop : bytesToNat (buf.drop (start + src.length)) = 0 := by
      rw [bytesToNat_drop hb]
      apply Nat.div_eq_of_lt
      exact lt_of_lt_of_le hinv (pow_le_pow_bits (by omega))
    rw [htlen, htake, hdrop]
    ring

mutual
theorem encodeField_val : ∀ (f : Field) (buf : List Nat) (c : Nat),
    Field.wfB f = true → allBytes buf → bytesToNat buf < 2 ^ c →
    addFieldSizeBits c f ≤ 8 * buf.length →
    allBytes (encodeField f buf c).2.1 ∧
    bytesToNat (encodeField f buf c).2.1 = bytesToNat buf + Field.contrib f c
  | .aligned bytes, buf, c, hw, hb, hinv, h => by
    have hbytes : allBytes bytes := allBytes_of_all hw
    simp only [encodeField, encodeValue, addFieldSizeBits, math.bits_to_contain] at h ⊢
    have hguard : ¬ math.bytes_to_contain c + bytes.length > buf.length := by omega
    rw [if_neg hguard]
    have hinv8 : bytesToNat buf < 2 ^ (8 * math.bytes_to_contain c) := by
      apply lt_of_lt_of_le hinv
      apply pow_le_pow_bits
      have := math.le_next_boundary c
      rw [math.next_boundary_eq_mul] at this
      omega
    have hwv := writeBytes_val hb hbytes (by omega) hinv8
    refine ⟨hwv.1, ?_⟩
    rw [hwv.2]
    show bytesToNat buf + bytesToNat bytes * 2 ^ (8 * math.bytes_to_contain c)
        = bytesToNat buf + bytesToNat bytes * 2 ^ math.next_boundary_bit_pos c
    rw [math.next_boundary_eq_mul, Nat.mul_comm (math.bytes_to_contain c) 8]
  | .bitf n v, buf, c, hw, hb, hinv, h => by
    have hn64 : n ≤ 64 := of_decide_eq_true hw
    simp only [encodeField, addFieldSizeBits, math.bits_to_contain] at h ⊢
    have hguard : ¬ c + n > buf.length * 8 := by omega
    rw [if_neg hguard]
    have hsz : n ≤ 8 * (natToBytesLE (smallestUnsignedBytes n) v).length := by
      rw [natToBytesLE_length]
      exact le_smallestUnsignedBytes hn64
    have hspec := encode_bits_spec hb (allBytes_natToBytesLE _ v) hsz (by omega) hinv
    refine ⟨hspec.2.1, ?_⟩
    rw [hspec.2.2, bytesToNat_natToBytesLE]
    show bytesToNat buf + v % 2 ^ (8 * smallestUnsignedBytes n) % 2 ^ n * 2 ^ c
        = bytesToNat buf + v % 2 ^ n * 2 ^ c
    have hdvd : (2 : Nat) ^ n ∣ 2 ^ (8 * smallestUnsignedBytes n) :=
      pow_dvd_pow 2 (le_smallestUnsignedBytes hn64)
    rw [Nat.mod_mod_of_dvd v hdvd]
  | .constBitf n v, buf, c, hw, hb, hinv, h => by
    have hn64 : n ≤ 64 := of_decide_eq_true hw
    simp only [encodeField, addFieldSizeBits, math.bits_to_contain] at h ⊢
    have hguard : ¬ c + n > buf.length * 8 := by omega
    rw [if_neg hguard]
    have hsz : n ≤ 8 * (natToBytesLE (smallestUnsignedBytes n) v).length := by
      rw [natToBytesLE_length]
      exact le_smallestUnsignedBytes hn64
    have hspec := encode_bits_spec hb (allBytes_natToBytesLE _ v) hsz (by omega) hinv
    refine ⟨hspec.2.1, ?_⟩
    rw [hspec.2.2, bytesToNat_natToBytesLE]
    show bytesToNat buf + v % 2 ^ (8 * smallestUnsignedBytes n) % 2 ^ n * 2 ^ c
        = bytesToNat buf + v % 2 ^ n * 2 ^ c
    have hdvd : (2 : Nat) ^ n ∣ 2 ^ (8 * smallestUnsignedBytes n) :=
      pow_dvd_pow 2 (le_smallestUnsignedBytes hn64)
    rw [Nat.mod_mod_of_dvd v hdvd]
  | .packet fs, buf, c, hw, hb, hinv, h => by
    have hpm := packetSizeBits_eq_mul fs
    have haf : addFieldSizeBits c (.packet fs)
        = math.bits_to_contain (math.bytes_to_contain c) + FieldList.packetSizeBits fs := rfl
    have hguard : ¬ math.bytes_to_contain c + FieldList.packetSizeBytes fs > buf.length := by
      rw [haf] at h
      simp only [math.bits_to_contain] at h
      omega
    have hinvn : bytesToNat buf < 2 ^ math.bits_to_contain (math.bytes_to_contain c) := by
      rw [btc_bits]
      exact lt_of_lt_of_le hinv (pow_le_pow_bits (math.le_next_boundary c))
    have hroom := accum_le_of_guard
      (show math.bytes_to_contain c + FieldList.packetSizeBytes fs ≤ buf.length by omega)
    have hsucc := encodeFields_success fs buf
      (math.bits_to_contain (math.bytes_to_contain c)) hroom
    have hval := encodeFields_val fs buf
      (math.bits_to_contain (math.bytes_to_contain c)) hw hb hinvn hroom
    simp only [encodeField]
    rw [if_neg hguard]
    rcases hres : encodeFields fs buf (math.bits_to_contain (math.bytes_to_contain c))
      with ⟨r, buf1, c1⟩
    rw [hres] at hsucc hval
    obtain ⟨hr, _, _⟩ := hsucc
    simp only at hr
    subst hr
    simp only at hval ⊢
    refine ⟨hval.1, ?_⟩
    rw [hval.2]
    show bytesToNat buf
          + FieldList.contribList fs (math.bits_to_contain (math.bytes_to_contain c))
        = bytesToNat buf + Field.contrib (.packet fs) c
    rw [btc_bits]
    rfl

theorem encodeFields_val : ∀ (fs : FieldList) (buf : List Nat) (c : Nat),
    FieldList.wfLB fs = true → allBytes buf → bytesToNat buf < 2 ^ c →
    FieldList.accumSizeBits fs c ≤ 8 * buf.length →
    allBytes (encodeFields fs buf c).2.1 ∧
    bytesToNat (encodeFields fs buf c).2.1
      = bytesToNat buf + FieldList.contribList fs c
  | .nil, buf, c, _, hb, _, _ => by
    simp only [encodeFields, FieldList.contribList]
    exact ⟨hb, by omega⟩
  | .cons f fs, buf, c, hw, hb, hinv, h => by
    rw [FieldList.wfLB, Bool.and_eq_true] at hw
    have hacc : FieldList.accumSizeBits (.cons f fs) c
        = FieldList.accumSizeBits fs (addFieldSizeBits c f) := rfl
    rw [hacc] at h
    have hroom : addFieldSizeBits c f ≤ 8 * buf.length :=
      Nat.le_trans (le_accumSizeBits fs _) h
    have hsucc := encodeField_success f buf c hroom
    have hval := encodeField_val f buf c hw.1 hb hinv hroom
    rcases hres : encodeField f buf c with ⟨r, buf1, c1⟩
    rw [hres] at hsucc hval
    obtain ⟨hr, hc1, hlen1⟩ := hsucc
    simp only at hr hc1 hlen1 hval
    subst hr
    subst hc1
    have hinv1 : bytesToNat buf1 < 2 ^ addFieldSizeBits c f := by
      rw [hval.2]
      exact contrib_lt f c (bytesToNat buf) hw.1 hinv
    have hrec := encodeFields_val fs buf1 (addFieldSizeBits c f) hw.2 hval.1 hinv1
      (by rw [hlen1]; exact h)
    simp only [encodeFields]
    rw [hres]
    simp only
    refine ⟨hrec.1, ?_⟩
    rw [hrec.2, hval.2]
    show bytesToNat buf + Field.contrib f c
          + FieldList.contribList fs (addFieldSizeBits c f)
        = bytesToNat buf + FieldList.contribList (.cons f fs) c
    have : FieldList.contribList (.cons f fs) c
        = Field.contrib f c + FieldList.contribList fs (addFieldSizeBits c f) := rfl
    omega
end

/-! ## Buffer contents on decoding

Decoding a zero-initialised target from a buffer whose bits below the
cursor are arbitrary (`P`), whose stream section holds the contributions of
the fields, and whose bits above the footprint are arbitrary (`Z`) succeeds
and recovers the canonical field values. -/

theorem le_8_bytes_to_contain (n : Nat) : n ≤ 8 * math.bytes_to_contain n := by
  rw [math.bytes_to_contain_eq]; omega

mutual
theorem decodeField_val : ∀ (f : Field) (buf : List Nat) (c : Nat) (P Z : Nat),
    Field.wfB f = true → allBytes buf →
    addFieldSizeBits c f ≤ 8 * buf.length →
    P < 2 ^ c →
    bytesToNat buf = P + Field.contrib f c + Z * 2 ^ addFieldSizeBits c f →
    decodeField (Field.zeroOf f) buf c
      = (.success, Field.canonicalDecode f, addFieldSizeBits c f)
  | .aligned bytes, buf, c, P, Z, hw, hb, h, hP, hdec => by
    have hbytes : allBytes bytes := allBytes_of_all hw
    have hBlt := bytesToNat_lt hbytes
    have haf : addFieldSizeBits c (.aligned bytes)
        = math.bits_to_contain (math.bytes_to_contain c) + bytes.length * 8 := rfl
    simp only [Field.zeroOf, decodeField, decodeValue, List.length_replicate,
      Field.canonicalDecode]
    have hguard : ¬ math.bytes_to_contain c + bytes.length > buf.length := by
      rw [haf] at h
      simp only [math.bits_to_contain] at h
      omega
    rw [if_neg hguard]
    simp only
    have hslice : readBytes buf (math.bytes_to_contain c) bytes.length = bytes := by
      apply bytesToNat_inj (fun x hx => hb x (List.drop_subset _ _ (List.take_subset _ _ hx)))
        hbytes
      · show (readBytes buf (math.bytes_to_contain c) bytes.length).length = bytes.length
        unfold readBytes
        simp
        omega
      · show bytesToNat (readBytes buf (math.bytes_to_contain c) bytes.length)
            = bytesToNat bytes
        unfold readBytes
        rw [bytesToNat_take (fun x hx => hb x (List.drop_subset _ _ hx)),
          bytesToNat_drop hb, hdec]
        have hcontrib : Field.contrib (.aligned bytes) c
            = bytesToNat bytes * 2 ^ math.next_boundary_bit_pos c := rfl
        rw [hcontrib, haf, btc_bits]
        have hregroup : P + bytesToNat bytes * 2 ^ math.next_boundary_bit_pos c
              + Z * 2 ^ (math.next_boundary_bit_pos c + bytes.length * 8)
            = P + 2 ^ math.next_boundary_bit_pos c
                * (bytesToNat bytes + Z * 2 ^ (bytes.length * 8)) := by
          rw [Nat.pow_add]; ring
        rw [hregroup]
        have hnb8 : (2 : Nat) ^ math.next_boundary_bit_pos c
            = 2 ^ (8 * math.bytes_to_contain c) := by
          rw [math.next_boundary_eq_mul, Nat.mul_comm]
        rw [hnb8, Nat.add_mul_div_left _ _ (Nat.pos_pow_of_pos _ (by norm_num))]
        have hPz : P / 2 ^ (8 * math.bytes_to_contain c) = 0 := by
          apply Nat.div_eq_of_lt
          apply lt_of_lt_of_le hP
          apply pow_le_pow_bits
          have := math.le_next_boundary c
          rw [math.next_boundary_eq_mul] at this
          omega
        rw [hPz, Nat.zero_add]
        have h88 : (2 : Nat) ^ (bytes.length * 8) = 2 ^ (8 * bytes.length) := by
          rw [Nat.mul_comm]
        rw [h88, Nat.add_mul_mod_self_right]
        exact Nat.mod_eq_of_lt hBlt
    rw [hslice, haf]
  | .bitf n v, buf, c, P, Z, hw, hb, h, hP, hdec => by
    have hn64 : n ≤ 64 := of_decide_eq_true hw
    have haf : addFieldSizeBits c (.bitf n v) = c + n := rfl
    rw [haf] at h hdec
    simp only [Field.zeroOf, decodeField, Field.canonicalDecode]
    have hguard : ¬ c + n > math.bits_to_contain buf.length := by
      simp only [math.bits_to_contain]
      omega
    rw [if_neg hguard]
    have hdval : bytesToNat
        (decode_bits (natToBytesLE (smallestUnsignedBytes n) 0) buf c n) = v % 2 ^ n := by
      have hdlen : n ≤ 8 * (natToBytesLE (smallestUnsignedBytes n) 0).length := by
        rw [natToBytesLE_length]
        exact le_smallestUnsignedBytes hn64
      rw [decode_bits_spec hb (by omega) hdlen]
      have hE : bytesToNat buf / 2 ^ c % 2 ^ n = v % 2 ^ n := by
        have hregroup : bytesToNat buf = P + 2 ^ c * (v % 2 ^ n + Z * 2 ^ n) := by
          rw [hdec, Nat.pow_add]
          have hc : Field.contrib (.bitf n v) c = v % 2 ^ n * 2 ^ c := rfl
          rw [hc]
          ring
        rw [hregroup, Nat.add_mul_div_left _ _ (Nat.pos_pow_of_pos _ (by norm_num)),
          Nat.div_eq_of_lt hP, Nat.zero_add, Nat.add_mul_mod_self_right]
        exact Nat.mod_eq_of_lt (Nat.mod_lt _ (Nat.pos_pow_of_pos _ (by norm_num)))
      rw [hE, bytesToNat_append, bytesToNat_natToBytesLE]
      have htail : bytesToNat ((natToBytesLE (smallestUnsignedBytes n) 0).drop
          (math.bytes_to_contain n)) = 0 := by
        rw [bytesToNat_drop (allBytes_natToBytesLE _ 0), bytesToNat_natToBytesLE]
        simp
      rw [htail, Nat.mul_zero, Nat.add_zero]
      have hvn : v % 2 ^ n % 2 ^ (8 * math.bytes_to_contain n) = v % 2 ^ n := by
        apply Nat.mod_eq_of_lt
        apply lt_of_lt_of_le (Nat.mod_lt _ (Nat.pos_pow_of_pos _ (by norm_num)))
        exact pow_le_pow_bits (le_8_bytes_to_contain n)
      rw [hvn]
    rw [hdval, haf]
  | .constBitf n v, buf, c, P, Z, hw, hb, h, hP, hdec => rfl
  | .packet fs, buf, c, P, Z, hw, hb, h, hP, hdec => by
    have hpm := packetSizeBits_eq_mul fs
    have haf : addFieldSizeBits c (.packet fs)
        = math.bits_to_contain (math.bytes_to_contain c) + FieldList.packetSizeBits fs := rfl
    have hguard : ¬ math.bytes_to_contain c
        + FieldList.packetSizeBytes (FieldList.zeroOfL fs) > buf.length := by
      rw [packetSizeBytes_zeroOf]
      rw [haf] at h
      simp only [math.bits_to_contain] at h
      omega
    simp only [Field.zeroOf, decodeField, Field.canonicalDecode]
    rw [if_neg hguard]
    have hsh := accumSizeBits_shift
      (a := math.bits_to_contain (math.bytes_to_contain c))
      (by unfold math.bits_to_contain; exact Dvd.intro_left _ rfl) fs 0
    rw [Nat.add_zero] at hsh
    have haccle : FieldList.accumSizeBits fs 0 ≤ FieldList.packetSizeBits fs :=
      math.le_next_boundary _
    have hrec := decodeFields_val fs buf
      (math.bits_to_contain (math.bytes_to_contain c)) P
      (Z * 2 ^ (FieldList.packetSizeBits fs - FieldList.accumSizeBits fs 0))
      hw hb
      (by
        rw [haf] at h
        rw [hsh]
        omega)
      (lt_of_lt_of_le hP (pow_le_pow_bits (by rw [btc_bits]; exact math.le_next_boundary c)))
      (by
        rw [hdec, haf]
        have hcontrib : Field.contrib (.packet fs) c
            = FieldList.contribList fs (math.next_boundary_bit_pos c) := rfl
        rw [hcontrib, ← btc_bits, hsh]
        have hexp : math.bits_to_contain (math.bytes_to_contain c)
              + FieldList.packetSizeBits fs
            = (math.bits_to_contain (math.bytes_to_contain c)
                + FieldList.accumSizeBits fs 0)
              + (FieldList.packetSizeBits fs - FieldList.accumSizeBits fs 0) := by
          omega
        rw [hexp, Nat.pow_add]
        ring)
    rw [hrec]
    simp only
    have hcur : math.next_boundary_bit_pos
          (FieldList.accumSizeBits fs (math.bits_to_contain (math.bytes_to_contain c)))
        = addFieldSizeBits c (.packet fs) := by
      rw [hsh, math.next_boundary_add_of_dvd
        (by unfold math.bits_to_contain; exact Dvd.intro_left _ rfl)]
      rfl
    rw [hcur]

theorem decodeFields_val : ∀ (fs : FieldList) (buf : List Nat) (c : Nat) (P Z : Nat),
    FieldList.wfLB fs = true → allBytes buf →
    FieldList.accumSizeBits fs c ≤ 8 * buf.length →
    P < 2 ^ c →
    bytesToNat buf = P + FieldList.contribList fs c
      + Z * 2 ^ FieldList.accumSizeBits fs c →
    decodeFields (FieldList.zeroOfL fs) buf c
      = (.success, FieldList.canonicalDecodeL fs, FieldList.accumSizeBits fs c)
  | .nil, buf, c, P, Z, _, hb, h, hP, hdec => by
    simp only [FieldList.zeroOfL, decodeFields, FieldList.canonicalDecodeL,
      FieldList.accumSizeBits]
  | .cons f fs, buf, c, P, Z, hw, hb, h, hP, hdec => by
    rw [FieldList.wfLB, Bool.and_eq_true] at hw
    have hacc : FieldList.accumSizeBits (.cons f fs) c
        = FieldList.accumSizeBits fs (addFieldSizeBits c f) := rfl
    rw [hacc] at h hdec
    have hle1 : addFieldSizeBits c f
        ≤ FieldList.accumSizeBits fs (addFieldSizeBits c f) := le_accumSizeBits fs _
    obtain ⟨C1, hC1⟩ := pow_dvd_contribList fs (addFieldSizeBits c f)
    have hhead := decodeField_val f buf c P
      (C1 + Z * 2 ^ (FieldList.accumSizeBits fs (addFieldSizeBits c f)
        - addFieldSizeBits c f))
      hw.1 hb (Nat.le_trans hle1 h) hP
      (by
        rw [hdec]
        have hcl : FieldList.contribList (.cons f fs) c
            = Field.contrib f c + FieldList.contribList fs (addFieldSizeBits c f) := rfl
        rw [hcl, hC1]
        have hpow : (2 : Nat) ^ FieldList.accumSizeBits fs (addFieldSizeBits c f)
            = 2 ^ addFieldSizeBits c f
              * 2 ^ (FieldList.accumSizeBits fs (addFieldSizeBits c f)
                - addFieldSizeBits c f) := by
          rw [← Nat.pow_add]
          congr 1
          omega
        rw [hpow]
        ring)
    have hP1 : P + Field.contrib f c < 2 ^ addFieldSizeBits c f :=
      contrib_lt f c P hw.1 hP
    have hrec := decodeFields_val fs buf (addFieldSizeBits c f)
      (P + Field.contrib f c) Z hw.2 hb h hP1
      (by
        rw [hdec]
        have hcl : FieldList.contribList (.cons f fs) c
            = Field.contrib f c + FieldList.contribList fs (addFieldSizeBits c f) := rfl
        rw [hcl]
        ring)
    show decodeFields (.cons (Field.zeroOf f) (FieldList.zeroOfL fs)) buf c = _
    simp only [decodeFields]
    rw [hhead]
    simp only
    rw [hrec]
    rfl
end

/-! ## ConstBitField storage is never written by the decoder -/

mutual
theorem decodeField_constVals : ∀ (t : Field) (buf : List Nat) (c : Nat),
    Field.constVals (decodeField t buf c).2.1 = Field.constVals t
  | .aligned bytes, buf, c => by
    simp only [decodeField]
    rcases decodeValue buf c bytes with ⟨r, b, cc⟩
    rfl
  | .bitf n v, buf, c => by
    simp only [decodeField]
    by_cases hguard : c + n > math.bits_to_contain buf.length
    · rw [if_pos hguard]
    · rw [if_neg hguard]
      rfl
  | .constBitf n v, buf, c => rfl
  | .packet fs, buf, c => by
    simp only [decodeField]
    by_cases hguard : math.bytes_to_contain c + FieldList.packetSizeBytes fs > buf.length
    · rw [if_pos hguard]
    · rw [if_neg hguard]
      rcases hres : decodeFields fs buf (math.bits_to_contain (math.bytes_to_contain c))
        with ⟨r, fsOut, cOut⟩
      have hrec := decodeFields_constVals fs buf (math.bits_to_contain (math.bytes_to_contain c))
      rw [hres] at hrec
      cases r
      · simp only
        exact hrec
      · simp only
        exact hrec

theorem decodeFields_constVals : ∀ (ts : FieldList) (buf : List Nat) (c : Nat),
    FieldList.constValsL (decodeFields ts buf c).2.1 = FieldList.constValsL ts
  | .nil, _, _ => rfl
  | .cons t ts, buf, c => by
    simp only [decodeFields]
    rcases hres : decodeField t buf c with ⟨r, t1, c1⟩
    have hft := decodeField_constVals t buf c
    rw [hres] at hft
    cases r
    · simp only
      rcases hres2 : decodeFields ts buf c1 with ⟨r2, ts2, c2⟩
      have hfts := decodeFields_constVals ts buf c1
      rw [hres2] at hfts
      show FieldList.constValsL (.cons t1 ts2) = FieldList.constValsL (.cons t ts)
      show Field.constVals t1 ++ FieldList.constValsL ts2
          = Field.constVals t ++ FieldList.constValsL ts
      rw [hft, hfts]
    · simp only
      show Field.constVals t1 ++ FieldList.constValsL ts
          = Field.constVals t ++ FieldList.constValsL ts
      rw [hft]
end

/-! ## In-range values survive the round trip -/

mutual
theorem matchIC_canonical : ∀ f : Field, Field.inRangeB f = true →
    Field.matchIC f (Field.canonicalDecode f) = true
  | .aligned bytes, _ => by
    simp [Field.canonicalDecode, Field.matchIC]
  | .bitf n v, h => by
    have hv : v < 2 ^ n := of_decide_eq_true h
    simp [Field.canonicalDecode, Field.matchIC, Nat.mod_eq_of_lt hv]
  | .constBitf n v, _ => by
    simp [Field.canonicalDecode, Field.matchIC]
  | .packet fs, h => by
    show FieldList.matchICL fs (FieldList.canonicalDecodeL fs) = true
    exact matchICL_canonical fs h

theorem matchICL_canonical : ∀ fs : FieldList, FieldList.inRangeLB fs = true →
    FieldList.matchICL fs (FieldList.canonicalDecodeL fs) = true
  | .nil, _ => rfl
  | .cons f fs, h => by
    rw [FieldList.inRangeLB, Bool.and_eq_true] at h
    show (Field.matchIC f (Field.canonicalDecode f)
        && FieldList.matchICL fs (FieldList.canonicalDecodeL fs)) = true
    rw [matchIC_canonical f h.1, matchICL_canonical fs h.2]
    rfl
end

/-! ## Pure bit-field packets (for the packing claim) -/

/-- A field sequence containing only `BitField`/`ConstBitField` entries. -/
def FieldList.pureBitB : FieldList → Bool
  | .nil => true
  | .cons (.bitf _ _) fs => FieldList.pureBitB fs
  | .cons (.constBitf _ _) fs => FieldList.pureBitB fs
  | .cons _ _ => false

/-- Total declared width `N₁ + ... + Nₖ` of a pure bit-field sequence. -/
def FieldList.sumWidths : FieldList → Nat
  | .nil => 0
  | .cons (.bitf n _) fs => n + FieldList.sumWidths fs
  | .cons (.constBitf n _) fs => n + FieldList.sumWidths fs
  | .cons _ fs => FieldList.sumWidths fs

/-- The little-endian concatenation of the low `Nᵢ` bits of each value:
field 1 occupies the least significant bits, with no gaps. -/
def FieldList.concatBits : FieldList → Nat
  | .nil => 0
  | .cons (.bitf n v) fs => v % 2 ^ n + 2 ^ n * FieldList.concatBits fs
  | .cons (.constBitf n v) fs => v % 2 ^ n + 2 ^ n * FieldList.concatBits fs
  | .cons _ fs => FieldList.concatBits fs

theorem accum_pureBit : ∀ (fs : FieldList) (c : Nat), FieldList.pureBitB fs = true →
    FieldList.accumSizeBits fs c = c + FieldList.sumWidths fs
  | .nil, c, _ => rfl
  | .cons (.bitf n v) fs, c, h => by
    show FieldList.accumSizeBits fs (c + n) = c + (n + FieldList.sumWidths fs)
    rw [accum_pureBit fs (c + n) h]
    ring
  | .cons (.constBitf n v) fs, c, h => by
    show FieldList.accumSizeBits fs (c + n) = c + (n + FieldList.sumWidths fs)
    rw [accum_pureBit fs (c + n) h]
    ring

theorem contribList_pureBit : ∀ (fs : FieldList) (c : Nat), FieldList.pureBitB fs = true →
    FieldList.contribList fs c = FieldList.concatBits fs * 2 ^ c
  | .nil, c, _ => by
    show 0 = 0 * 2 ^ c
    ring
  | .cons (.bitf n v) fs, c, h => by
    show v % 2 ^ n * 2 ^ c + FieldList.contribList fs (c + n)
        = (v % 2 ^ n + 2 ^ n * FieldList.concatBits fs) * 2 ^ c
    rw [contribList_pureBit fs (c + n) h, Nat.pow_add]
    ring
  | .cons (.constBitf n v) fs, c, h => by
    show v % 2 ^ n * 2 ^ c + FieldList.contribList fs (c + n)
        = (v % 2 ^ n + 2 ^ n * FieldList.concatBits fs) * 2 ^ c
    rw [contribList_pureBit fs (c + n) h, Nat.pow_add]
    ring

/-! ## Positional access helpers -/

theorem getD_take {l : List Nat} {n i : Nat} (h : i < n) :
    (l.take n).getD i 0 = l.getD i 0 := by
  simp [List.getD_eq_getElem?_getD, List.getElem?_take, h]

theorem getD_drop (l : List Nat) (n i : Nat) :
    (l.drop n).getD i 0 = l.getD (n + i) 0 := by
  simp [List.getD_eq_getElem?_getD, List.getElem?_drop]

theorem getD_append_left {l1 l2 : List Nat} {i : Nat} (h : i < l1.length) :
    (l1 ++ l2).getD i 0 = l1.getD i 0 := by
  simp [List.getD_eq_getElem?_getD, List.getElem?_append, h]

theorem getD_append_right {l1 l2 : List Nat} {i : Nat} (h : l1.length ≤ i) :
    (l1 ++ l2).getD i 0 = l2.getD (i - l1.length) 0 := by
  rw [List.getD_eq_getElem?_getD, List.getElem?_append_right h, ← List.getD_eq_getElem?_getD]

/-! ## Closed forms of the Packet-level codec -/

theorem nb_accum_btc (fs : FieldList) (c : Nat) :
    math.next_boundary_bit_pos
        (FieldList.accumSizeBits fs (math.bits_to_contain (math.bytes_to_contain c)))
      = math.next_boundary_bit_pos c + FieldList.packetSizeBits fs := by
  have hsh := accumSizeBits_shift (a := math.bits_to_contain (math.bytes_to_contain c))
    (by unfold math.bits_to_contain; exact Dvd.intro_left _ rfl) fs 0
  rw [Nat.add_zero] at hsh
  rw [hsh, math.next_boundary_add_of_dvd
    (by unfold math.bits_to_contain; exact Dvd.intro_left _ rfl), btc_bits]
  rfl

theorem encodePacket_cases (fs : FieldList) (buf : List Nat) (c : Nat) :
    encodePacket fs buf c
      = if math.bytes_to_contain c + FieldList.packetSizeBytes fs > buf.length
        then (.failure, buf, c)
        else (.success,
              (encodeFields fs buf (math.bits_to_contain (math.bytes_to_contain c))).2.1,
              math.next_boundary_bit_pos c + FieldList.packetSizeBits fs) := by
  simp only [encodePacket]
  by_cases hg : math.bytes_to_contain c + FieldList.packetSizeBytes fs > buf.length
  · rw [if_pos hg, if_pos hg]
  · rw [if_neg hg, if_neg hg]
    have hES := encodeFields_success fs buf (math.bits_to_contain (math.bytes_to_contain c))
      (accum_le_of_guard (by omega))
    rcases hres : encodeFields fs buf (math.bits_to_contain (math.bytes_to_contain c))
      with ⟨r, buf1, c1⟩
    rw [hres] at hES
    obtain ⟨hr, hc1, -⟩ := hES
    simp only at hr hc1
    subst hr
    show (BinaryResult.success, buf1, math.next_boundary_bit_pos c1)
      = (BinaryResult.success, buf1, math.next_boundary_bit_pos c + FieldList.packetSizeBits fs)
    rw [hc1, nb_accum_btc]

theorem decodePacket_cases (fs : FieldList) (buf : List Nat) (c : Nat) :
    decodePacket fs buf c
      = if math.bytes_to_contain c + FieldList.packetSizeBytes fs > buf.length
        then (.failure, fs, c)
        else (.success,
              (decodeFields fs buf (math.bits_to_contain (math.bytes_to_contain c))).2.1,
              math.next_boundary_bit_pos c + FieldList.packetSizeBits fs) := by
  simp only [decodePacket]
  by_cases hg : math.bytes_to_contain c + FieldList.packetSizeBytes fs > buf.length
  · rw [if_pos hg, if_pos hg]
  · rw [if_neg hg, if_neg hg]
    have hDS := decodeFields_success fs buf (math.bits_to_contain (math.bytes_to_contain c))
      (accum_le_of_guard (by omega))
    rcases hres : decodeFields fs buf (math.bits_to_contain (math.bytes_to_contain c))
      with ⟨r, fs1, c1⟩
    rw [hres] at hDS
    obtain ⟨hr, hc1⟩ := hDS
    simp only at hr hc1
    subst hr
    show (BinaryResult.success, fs1, math.next_boundary_bit_pos c1)
      = (BinaryResult.success, fs1, math.next_boundary_bit_pos c + FieldList.packetSizeBits fs)
    rw [hc1, nb_accum_btc]

/-! ## Claim theorems -/

/-- C1 counterexample: the round-trip claim fails without an in-range
restriction on `BitField` values.  A 20-bit field holding `2^20` (the C++
member is a `uint32_t`, so this value is constructible) encodes as all-zero
bits, and the decoded packet does not match the original at the field-value
level. -/
theorem claim_C1_counterexample :
    FieldList.wfLB (FieldList.cons (.bitf 20 1048576) .nil) = true ∧
    (encodePacket (FieldList.cons (.bitf 20 1048576) .nil) [0, 0, 0] 0).1 = .success ∧
    FieldList.matchICL (FieldList.cons (.bitf 20 1048576) .nil)
      (decodePacket (FieldList.zeroOfL (FieldList.cons (.bitf 20 1048576) .nil))
        (encodePacket (FieldList.cons (.bitf 20 1048576) .nil) [0, 0, 0] 0).2.1 0).2.1
      = false := by
  decide

/-- C1 (amended): for every schema whose `BitField`/`ConstBitField` values
fit in their declared widths (and whose widths pass the `static_assert`),
encoding into a zeroed buffer of `size_in_bytes(S)` bytes from cursor 0
succeeds, decoding that buffer from cursor 0 into a fresh zeroed target
succeeds and recovers every field value, ignoring `ConstBitField` values. -/
theorem claim_C1_roundtrip (fs : FieldList)
    (hwf : FieldList.wfLB fs = true) (hrange : FieldList.inRangeLB fs = true) :
    (encodePacket fs (List.replicate (FieldList.packetSizeBytes fs) 0) 0).1 = .success ∧
    decodePacket (FieldList.zeroOfL fs)
        (encodePacket fs (List.replicate (FieldList.packetSizeBytes fs) 0) 0).2.1 0
      = (.success, FieldList.canonicalDecodeL fs, FieldList.packetSizeBits fs) ∧
    FieldList.matchICL fs (FieldList.canonicalDecodeL fs) = true := by
  set B := FieldList.packetSizeBytes fs with hB
  set buf0 := List.replicate B 0 with hbuf0
  have hlen0 : buf0.length = B := List.length_replicate B 0
  have hb0 : allBytes buf0 := allBytes_replicate_zero B
  have hv0 : bytesToNat buf0 = 0 := bytesToNat_replicate_zero B
  have hpm : FieldList.packetSizeBits fs = 8 * B := packetSizeBits_eq_mul fs
  have haccle : FieldList.accumSizeBits fs 0 ≤ 8 * buf0.length := by
    have h1 : FieldList.accumSizeBits fs 0 ≤ FieldList.packetSizeBits fs :=
      math.le_next_boundary _
    rw [hlen0]
    omega
  have hES := encodeFields_success fs buf0 0 haccle
  have hEF := encodeFields_val fs buf0 0 hwf hb0 (by rw [hv0]; norm_num) haccle
  rcases hres : encodeFields fs buf0 0 with ⟨r, buf1, c1⟩
  rw [hres] at hES hEF
  obtain ⟨hr, hc1, hlen1⟩ := hES
  simp only at hr hc1 hlen1
  subst hr
  have hb1 : allBytes buf1 := hEF.1
  have hv1 : bytesToNat buf1 = FieldList.contribList fs 0 := by
    have := hEF.2
    simp only at this
    rw [this, hv0, Nat.zero_add]
  have hguard : ¬ (math.bytes_to_contain 0 + B > buf0.length) := by
    have h0 : math.bytes_to_contain 0 = 0 := rfl
    rw [h0, hlen0]
    omega
  have henc : encodePacket fs buf0 0 = (.success, buf1, FieldList.packetSizeBits fs) := by
    simp only [encodePacket]
    rw [← hB, if_neg hguard]
    have h0 : math.bits_to_contain (math.bytes_to_contain 0) = 0 := rfl
    rw [h0, hres]
    show (BinaryResult.success, buf1, math.next_boundary_bit_pos c1)
      = (BinaryResult.success, buf1, math.next_boundary_bit_pos (FieldList.accumSizeBits fs 0))
    rw [hc1]
  have hDF := decodeFields_val fs buf1 0 0 0 hwf hb1
    (by rw [hlen1, hlen0]; exact haccle.trans (by rw [hlen0]))
    (by norm_num)
    (by rw [hv1]; ring)
  have hdguard : ¬ (math.bytes_to_contain 0 + FieldList.packetSizeBytes (FieldList.zeroOfL fs)
      > buf1.length) := by
    have h0 : math.bytes_to_contain 0 = 0 := rfl
    rw [h0, packetSizeBytes_zeroOf, hlen1, hlen0, ← hB]
    omega
  have hdec : decodePacket (FieldList.zeroOfL fs) buf1 0
      = (.success, FieldList.canonicalDecodeL fs, FieldList.packetSizeBits fs) := by
    simp only [decodePacket]
    rw [if_neg hdguard]
    have h0 : math.bits_to_contain (math.bytes_to_contain 0) = 0 := rfl
    rw [h0, hDF]
    show (BinaryResult.success, FieldList.canonicalDecodeL fs,
        math.next_boundary_bit_pos (FieldList.accumSizeBits fs 0))
      = (BinaryResult.success, FieldList.canonicalDecodeL fs, FieldList.packetSizeBits fs)
    rfl
  refine ⟨?_, ?_, matchICL_canonical fs hrange⟩
  · rw [henc]
  · have hproj : (encodePacket fs buf0 0).2.1 = buf1 := by rw [henc]
    rw [hproj, hdec]

/-- C1 witness: a schema mixing all four field kinds, with in-range values,
round-trips. -/
theorem claim_C1_roundtrip_witness :
    FieldList.wfLB (FieldList.cons (.bitf 4 11) (FieldList.cons (.constBitf 3 5)
      (FieldList.cons (.aligned [171, 205]) (FieldList.cons
        (.packet (FieldList.cons (.bitf 1 1) .nil)) .nil)))) = true ∧
    FieldList.inRangeLB (FieldList.cons (.bitf 4 11) (FieldList.cons (.constBitf 3 5)
      (FieldList.cons (.aligned [171, 205]) (FieldList.cons
        (.packet (FieldList.cons (.bitf 1 1) .nil)) .nil)))) = true ∧
    ((encodePacket (FieldList.cons (.bitf 4 11) (FieldList.cons (.constBitf 3 5)
        (FieldList.cons (.aligned [171, 205]) (FieldList.cons
          (.packet (FieldList.cons (.bitf 1 1) .nil)) .nil))))
        (List.replicate (FieldList.packetSizeBytes (FieldList.cons (.bitf 4 11)
          (FieldList.cons (.constBitf 3 5) (FieldList.cons (.aligned [171, 205])
            (FieldList.cons (.packet (FieldList.cons (.bitf 1 1) .nil)) .nil))))) 0) 0).1
        = .success ∧
      decodePacket (FieldList.zeroOfL (FieldList.cons (.bitf 4 11) (FieldList.cons
          (.constBitf 3 5) (FieldList.cons (.aligned [171, 205]) (FieldList.cons
            (.packet (FieldList.cons (.bitf 1 1) .nil)) .nil)))))
          (encodePacket (FieldList.cons (.bitf 4 11) (FieldList.cons (.constBitf 3 5)
            (FieldList.cons (.aligned [171, 205]) (FieldList.cons
              (.packet (FieldList.cons (.bitf 1 1) .nil)) .nil))))
            (List.replicate (FieldList.packetSizeBytes (FieldList.cons (.bitf 4 11)
              (FieldList.cons (.constBitf 3 5) (FieldList.cons (.aligned [171, 205])
                (FieldList.cons (.packet (FieldList.cons (.bitf 1 1) .nil)) .nil))))) 0)
            0).2.1 0
        = (.success, FieldList.canonicalDecodeL (FieldList.cons (.bitf 4 11)
            (FieldList.cons (.constBitf 3 5) (FieldList.cons (.aligned [171, 205])
              (FieldList.cons (.packet (FieldList.cons (.bitf 1 1) .nil)) .nil)))),
           FieldList.packetSizeBits (FieldList.cons (.bitf 4 11) (FieldList.cons
             (.constBitf 3 5) (FieldList.cons (.aligned [171, 205]) (FieldList.cons
               (.packet (FieldList.cons (.bitf 1 1) .nil)) .nil))))) ∧
      FieldList.matchICL (FieldList.cons (.bitf 4 11) (FieldList.cons (.constBitf 3 5)
          (FieldList.cons (.aligned [171, 205]) (FieldList.cons
            (.packet (FieldList.cons (.bitf 1 1) .nil)) .nil))))
        (FieldList.canonicalDecodeL (FieldList.cons (.bitf 4 11) (FieldList.cons
          (.constBitf 3 5) (FieldList.cons (.aligned [171, 205]) (FieldList.cons
            (.packet (FieldList.cons (.bitf 1 1) .nil)) .nil))))) = true) :=
  ⟨by decide, by decide,
   claim_C1_roundtrip (FieldList.cons (.bitf 4 11) (FieldList.cons (.constBitf 3 5)
     (FieldList.cons (.aligned [171, 205]) (FieldList.cons
       (.packet (FieldList.cons (.bitf 1 1) .nil)) .nil)))) (by decide) (by decide)⟩

/-- C2 counterexample: with an unaligned entry cursor, a successful Packet
encode does not advance the cursor by exactly `size_in_bits(Packet)`.
Entering at bit 3 with a one-byte packet returns cursor 16, a delta of 13,
not 8. -/
theorem claim_C2_counterexample :
    (encodePacket (FieldList.cons (.bitf 8 0) .nil) [0, 0] 3).1 = .success ∧
    FieldList.packetSizeBits (FieldList.cons (.bitf 8 0) .nil) = 8 ∧
    (encodePacket (FieldList.cons (.bitf 8 0) .nil) [0, 0] 3).2.2 = 16 ∧
    ¬ ((encodePacket (FieldList.cons (.bitf 8 0) .nil) [0, 0] 3).2.2 - 3
        = FieldList.packetSizeBits (FieldList.cons (.bitf 8 0) .nil)) := by
  decide

/-- C2 (amended): on Packet-level encode/decode success the returned cursor
is `next_boundary_bit_pos(entry) + size_in_bits(Packet)`; it is always a
multiple of 8; and when the entry cursor is already byte-aligned the delta
is exactly `size_in_bits(Packet)`. -/
theorem claim_C2_cursor (fs : FieldList) (buf : List Nat) (c : Nat) :
    ((encodePacket fs buf c).1 = .success →
      (encodePacket fs buf c).2.2
          = math.next_boundary_bit_pos c + FieldList.packetSizeBits fs ∧
      8 ∣ (encodePacket fs buf c).2.2 ∧
      (8 ∣ c → (encodePacket fs buf c).2.2 - c = FieldList.packetSizeBits fs)) ∧
    ((decodePacket fs buf c).1 = .success →
      (decodePacket fs buf c).2.2
          = math.next_boundary_bit_pos c + FieldList.packetSizeBits fs ∧
      8 ∣ (decodePacket fs buf c).2.2 ∧
      (8 ∣ c → (decodePacket fs buf c).2.2 - c = FieldList.packetSizeBits fs)) := by
  have hdvd : 8 ∣ math.next_boundary_bit_pos c + FieldList.packetSizeBits fs :=
    Nat.dvd_add (math.dvd_next_boundary c) (math.dvd_next_boundary _)
  constructor
  · intro hsucc
    rw [encodePacket_cases] at hsucc ⊢
    by_cases hg : math.bytes_to_contain c + FieldList.packetSizeBytes fs > buf.length
    · rw [if_pos hg] at hsucc
      exact absurd hsucc (by simp)
    · rw [if_neg hg]
      refine ⟨rfl, hdvd, fun hc => ?_⟩
      rw [math.next_boundary_of_dvd hc]
      show c + FieldList.packetSizeBits fs - c = FieldList.packetSizeBits fs
      omega
  · intro hsucc
    rw [decodePacket_cases] at hsucc ⊢
    by_cases hg : math.bytes_to_contain c + FieldList.packetSizeBytes fs > buf.length
    · rw [if_pos hg] at hsucc
      exact absurd hsucc (by simp)
    · rw [if_neg hg]
      refine ⟨rfl, hdvd, fun hc => ?_⟩
      rw [math.next_boundary_of_dvd hc]
      show c + FieldList.packetSizeBits fs - c = FieldList.packetSizeBits fs
      omega

/-- C2 witness: a byte-aligned entry cursor 8 with a 5-bit packet in a
two-byte buffer: encode succeeds, the cursor returns 16, delta exactly 8. -/
theorem claim_C2_cursor_witness :
    (encodePacket (FieldList.cons (.bitf 5 9) .nil) [0, 0] 8).1 = .success ∧
    (8 : Nat) ∣ 8 ∧
    ((encodePacket (FieldList.cons (.bitf 5 9) .nil) [0, 0] 8).2.2
        = math.next_boundary_bit_pos 8
          + FieldList.packetSizeBits (FieldList.cons (.bitf 5 9) .nil) ∧
     8 ∣ (encodePacket (FieldList.cons (.bitf 5 9) .nil) [0, 0] 8).2.2 ∧
     (8 ∣ 8 → (encodePacket (FieldList.cons (.bitf 5 9) .nil) [0, 0] 8).2.2 - 8
        = FieldList.packetSizeBits (FieldList.cons (.bitf 5 9) .nil))) :=
  ⟨by decide, by decide,
   (claim_C2_cursor (FieldList.cons (.bitf 5 9) .nil) [0, 0] 8).1 (by decide)⟩

/-- C3: any failing encode/decode call — Packet-level or single-field
(aligned value, `BitField`, `ConstBitField`, nested packet) — returns with
the cursor equal to its value on entry. -/
theorem claim_C3_failure_cursor (f : Field) (fs : FieldList) (buf : List Nat) (c : Nat) :
    ((encodePacket fs buf c).1 = .failure → (encodePacket fs buf c).2.2 = c) ∧
    ((decodePacket fs buf c).1 = .failure → (decodePacket fs buf c).2.2 = c) ∧
    ((encodeField f buf c).1 = .failure → (encodeField f buf c).2.2 = c) ∧
    ((decodeField f buf c).1 = .failure → (decodeField f buf c).2.2 = c) := by
  have hpe : ∀ (gs : FieldList), (encodePacket gs buf c).1 = .failure →
      (encodePacket gs buf c).2.2 = c := by
    intro gs hfail
    rw [encodePacket_cases] at hfail ⊢
    by_cases hg : math.bytes_to_contain c + FieldList.packetSizeBytes gs > buf.length
    · rw [if_pos hg]
    · rw [if_neg hg] at hfail
      exact absurd hfail (by simp)
  have hpd : ∀ (gs : FieldList), (decodePacket gs buf c).1 = .failure →
      (decodePacket gs buf c).2.2 = c := by
    intro gs hfail
    rw [decodePacket_cases] at hfail ⊢
    by_cases hg : math.bytes_to_contain c + FieldList.packetSizeBytes gs > buf.length
    · rw [if_pos hg]
    · rw [if_neg hg] at hfail
      exact absurd hfail (by simp)
  refine ⟨hpe fs, hpd fs, ?_, ?_⟩
  · cases f with
    | aligned bytes =>
      intro hfail
      simp only [encodeField, encodeValue] at hfail ⊢
      by_cases hg : math.bytes_to_contain c + bytes.length > buf.length
      · rw [if_pos hg]
      · rw [if_neg hg] at hfail
        exact absurd hfail (by simp)
    | bitf n v =>
      intro hfail
      simp only [encodeField] at hfail ⊢
      by_cases hg : c + n > math.bits_to_contain buf.length
      · rw [if_pos hg]
      · rw [if_neg hg] at hfail
        exact absurd hfail (by simp)
    | constBitf n v =>
      intro hfail
      simp only [encodeField] at hfail ⊢
      by_cases hg : c + n > math.bits_to_contain buf.length
      · rw [if_pos hg]
      · rw [if_neg hg] at hfail
        exact absurd hfail (by simp)
    | packet gs =>
      rw [encodeField_packet]
      exact hpe gs
  · cases f with
    | aligned bytes =>
      intro hfail
      simp only [decodeField, decodeValue] at hfail ⊢
      by_cases hg : math.bytes_to_contain c + bytes.length > buf.length
      · rw [if_pos hg]
      · rw [if_neg hg] at hfail
        exact absurd hfail (by simp)
    | bitf n v =>
      intro hfail
      simp only [decodeField] at hfail ⊢
      by_cases hg : c + n > math.bits_to_contain buf.length
      · rw [if_pos hg]
      · rw [if_neg hg] at hfail
        exact absurd hfail (by simp)
    | constBitf n v =>
      intro hfail
      exact absurd hfail (by simp [decodeField])
    | packet gs =>
      intro hfail
      rw [decodeField_packet] at hfail ⊢
      exact hpd gs hfail

/-- C3 witness: a one-byte aligned field, a one-field packet, a `BitField`
and its decode all fail in an empty buffer at cursor 0, leaving the cursor
at 0. -/
theorem claim_C3_failure_cursor_witness :
    (encodePacket (FieldList.cons (.aligned [1]) .nil) [] 0).2.2 = 0 ∧
    (decodePacket (FieldList.cons (.aligned [1]) .nil) [] 0).2.2 = 0 ∧
    (encodeField (.bitf 4 0) [] 0).2.2 = 0 ∧
    (decodeField (.bitf 4 0) [] 0).2.2 = 0 :=
  ⟨(claim_C3_failure_cursor (.bitf 4 0) (FieldList.cons (.aligned [1]) .nil) [] 0).1
     (by decide),
   (claim_C3_failure_cursor (.bitf 4 0) (FieldList.cons (.aligned [1]) .nil) [] 0).2.1
     (by decide),
   (claim_C3_failure_cursor (.bitf 4 0) (FieldList.cons (.aligned [1]) .nil) [] 0).2.2.1
     (by decide),
   (claim_C3_failure_cursor (.bitf 4 0) (FieldList.cons (.aligned [1]) .nil) [] 0).2.2.2
     (by decide)⟩

/-- C4: for a Packet holding only `BitField`/`ConstBitField` fields of
widths `N1..Nk`, `size_in_bits` is the next byte boundary of `N1+...+Nk`,
`size_in_bytes` is `ceil((N1+...+Nk)/8)`, and a successful encode from
cursor 0 into a zeroed buffer lays the k fields down contiguously: the
buffer's value is exactly the gap-free little-endian concatenation of the
fields' low bits. -/
theorem claim_C4_packing (fs : FieldList)
    (hpure : FieldList.pureBitB fs = true) (hwf : FieldList.wfLB fs = true) :
    FieldList.packetSizeBits fs = math.next_boundary_bit_pos (FieldList.sumWidths fs) ∧
    FieldList.packetSizeBytes fs = math.bytes_to_contain (FieldList.sumWidths fs) ∧
    (encodePacket fs (List.replicate (FieldList.packetSizeBytes fs) 0) 0).1 = .success ∧
    (encodePacket fs (List.replicate (FieldList.packetSizeBytes fs) 0) 0).2.1.length
      = math.bytes_to_contain (FieldList.sumWidths fs) ∧
    bytesToNat (encodePacket fs (List.replicate (FieldList.packetSizeBytes fs) 0) 0).2.1
      = FieldList.concatBits fs := by
  have haccz : FieldList.accumSizeBits fs 0 = FieldList.sumWidths fs := by
    rw [accum_pureBit fs 0 hpure, Nat.zero_add]
  have hbits : FieldList.packetSizeBits fs
      = math.next_boundary_bit_pos (FieldList.sumWidths fs) := by
    show math.next_boundary_bit_pos (FieldList.accumSizeBits fs 0) = _
    rw [haccz]
  have hbytes : FieldList.packetSizeBytes fs
      = math.bytes_to_contain (FieldList.sumWidths fs) := by
    show math.bytes_to_contain (FieldList.packetSizeBits fs) = _
    rw [hbits, math.bytes_to_contain_next_boundary]
  set B := FieldList.packetSizeBytes fs with hB
  set buf0 := List.replicate B 0 with hbuf0
  have hlen0 : buf0.length = B := List.length_replicate B 0
  have hb0 : allBytes buf0 := allBytes_replicate_zero B
  have hv0 : bytesToNat buf0 = 0 := bytesToNat_replicate_zero B
  have hpm : FieldList.packetSizeBits fs = 8 * B := packetSizeBits_eq_mul fs
  have haccle : FieldList.accumSizeBits fs 0 ≤ 8 * buf0.length := by
    have h1 : FieldList.accumSizeBits fs 0 ≤ FieldList.packetSizeBits fs :=
      math.le_next_boundary _
    rw [hlen0]
    omega
  have hES := encodeFields_success fs buf0 0 haccle
  have hEF := encodeFields_val fs buf0 0 hwf hb0 (by rw [hv0]; norm_num) haccle
  rcases hres : encodeFields fs buf0 0 with ⟨r, buf1, c1⟩
  rw [hres] at hES hEF
  obtain ⟨hr, hc1, hlen1⟩ := hES
  simp only at hr hc1 hlen1
  subst hr
  have hv1 : bytesToNat buf1 = FieldList.concatBits fs := by
    have h2 := hEF.2
    simp only at h2
    rw [h2, hv0, Nat.zero_add, contribList_pureBit fs 0 hpure, pow_zero, Nat.mul_one]
  have hguard : ¬ (math.bytes_to_contain 0 + B > buf0.length) := by
    have h0 : math.bytes_to_contain 0 = 0 := rfl
    rw [h0, hlen0]
    omega
  have henc : encodePacket fs buf0 0 = (.success, buf1, FieldList.packetSizeBits fs) := by
    simp only [encodePacket]
    rw [← hB, if_neg hguard]
    have h0 : math.bits_to_contain (math.bytes_to_contain 0) = 0 := rfl
    rw [h0, hres]
    show (BinaryResult.success, buf1, math.next_boundary_bit_pos c1)
      = (BinaryResult.success, buf1, math.next_boundary_bit_pos (FieldList.accumSizeBits fs 0))
    rw [hc1]
  refine ⟨hbits, hbytes, ?_, ?_, ?_⟩
  · rw [henc]
  · have hproj : (encodePacket fs buf0 0).2.1 = buf1 := by rw [henc]
    rw [hproj, hlen1, hlen0]
    exact hbytes
  · have hproj : (encodePacket fs buf0 0).2.1 = buf1 := by rw [henc]
    rw [hproj, hv1]

/-- C4 witness: widths 3, 2, 4 pack into `ceil(9/8) = 2` bytes with value
`5 + 2^3*(1 + 2^2*9) = 301`. -/
theorem claim_C4_packing_witness :
    FieldList.pureBitB (FieldList.cons (.bitf 3 5) (FieldList.cons (.constBitf 2 1)
      (FieldList.cons (.bitf 4 9) .nil))) = true ∧
    FieldList.wfLB (FieldList.cons (.bitf 3 5) (FieldList.cons (.constBitf 2 1)
      (FieldList.cons (.bitf 4 9) .nil))) = true ∧
    (FieldList.packetSizeBits (FieldList.cons (.bitf 3 5) (FieldList.cons (.constBitf 2 1)
        (FieldList.cons (.bitf 4 9) .nil)))
      = math.next_boundary_bit_pos (FieldList.sumWidths (FieldList.cons (.bitf 3 5)
          (FieldList.cons (.constBitf 2 1) (FieldList.cons (.bitf 4 9) .nil)))) ∧
     FieldList.packetSizeBytes (FieldList.cons (.bitf 3 5) (FieldList.cons (.constBitf 2 1)
        (FieldList.cons (.bitf 4 9) .nil)))
      = math.bytes_to_contain (FieldList.sumWidths (FieldList.cons (.bitf 3 5)
          (FieldList.cons (.constBitf 2 1) (FieldList.cons (.bitf 4 9) .nil)))) ∧
     (encodePacket (FieldList.cons (.bitf 3 5) (FieldList.cons (.constBitf 2 1)
          (FieldList.cons (.bitf 4 9) .nil)))
        (List.replicate (FieldList.packetSizeBytes (FieldList.cons (.bitf 3 5)
          (FieldList.cons (.constBitf 2 1) (FieldList.cons (.bitf 4 9) .nil)))) 0) 0).1
        = .success ∧
     (encodePacket (FieldList.cons (.bitf 3 5) (FieldList.cons (.constBitf 2 1)
          (FieldList.cons (.bitf 4 9) .nil)))
        (List.replicate (FieldList.packetSizeBytes (FieldList.cons (.bitf 3 5)
          (FieldList.cons (.constBitf 2 1) (FieldList.cons (.bitf 4 9) .nil)))) 0) 0).2.1.length
        = math.bytes_to_contain (FieldList.sumWidths (FieldList.cons (.bitf 3 5)
            (FieldList.cons (.constBitf 2 1) (FieldList.cons (.bitf 4 9) .nil)))) ∧
     bytesToNat (encodePacket (FieldList.cons (.bitf 3 5) (FieldList.cons (.constBitf 2 1)
          (FieldList.cons (.bitf 4 9) .nil)))
        (List.replicate (FieldList.packetSizeBytes (FieldList.cons (.bitf 3 5)
          (FieldList.cons (.constBitf 2 1) (FieldList.cons (.bitf 4 9) .nil)))) 0) 0).2.1
        = FieldList.concatBits (FieldList.cons (.bitf 3 5) (FieldList.cons (.constBitf 2 1)
            (FieldList.cons (.bitf 4 9) .nil)))) :=
  ⟨by decide, by decide,
   claim_C4_packing (FieldList.cons (.bitf 3 5) (FieldList.cons (.constBitf 2 1)
     (FieldList.cons (.bitf 4 9) .nil))) (by decide) (by decide)⟩

/-- C5: single-value encode computes `start_byte = ceil(cursor/8)`, fails
(leaving buffer and cursor unchanged) iff `start_byte + size_in_bytes(T)`
overflows the buffer, and otherwise copies exactly the object
representation to bytes `start_byte ..< start_byte + size_in_bytes(T)`
(all other bytes untouched) and sets the cursor to
`8*start_byte + size_in_bits(T)`; decode is the symmetric read. -/
theorem claim_C5_value_codec (objBytes buf : List Nat) (c : Nat) :
    math.bytes_to_contain c = (c + 7) / 8 ∧
    ((encodeValue objBytes buf c).1 = .failure
        ↔ math.bytes_to_contain c + objBytes.length > buf.length) ∧
    ((encodeValue objBytes buf c).1 = .failure →
      encodeValue objBytes buf c = (.failure, buf, c)) ∧
    (math.bytes_to_contain c + objBytes.length ≤ buf.length →
      (encodeValue objBytes buf c).2.2
          = 8 * math.bytes_to_contain c + 8 * objBytes.length ∧
      (encodeValue objBytes buf c).2.1.length = buf.length ∧
      (∀ i, i < objBytes.length →
        (encodeValue objBytes buf c).2.1.getD (math.bytes_to_contain c + i) 0
          = objBytes.getD i 0) ∧
      (∀ j, j < math.bytes_to_contain c ∨ math.bytes_to_contain c + objBytes.length ≤ j →
        (encodeValue objBytes buf c).2.1.getD j 0 = buf.getD j 0)) ∧
    ((decodeValue buf c objBytes).1 = .failure
        ↔ math.bytes_to_contain c + objBytes.length > buf.length) ∧
    ((decodeValue buf c objBytes).1 = .failure →
      decodeValue buf c objBytes = (.failure, objBytes, c)) ∧
    (math.bytes_to_contain c + objBytes.length ≤ buf.length →
      decodeValue buf c objBytes
        = (.success, (buf.drop (math.bytes_to_contain c)).take objBytes.length,
           8 * math.bytes_to_contain c + 8 * objBytes.length)) := by
  by_cases hg : math.bytes_to_contain c + objBytes.length > buf.length
  · have he : encodeValue objBytes buf c = (.failure, buf, c) := by
      simp only [encodeValue]
      rw [if_pos hg]
    have hd : decodeValue buf c objBytes = (.failure, objBytes, c) := by
      simp only [decodeValue]
      rw [if_pos hg]
    refine ⟨math.bytes_to_contain_eq c, ?_, fun _ => he, fun hle => absurd hle (by omega),
            ?_, fun _ => hd, fun hle => absurd hle (by omega)⟩
    · rw [he]
      exact ⟨fun _ => hg, fun _ => rfl⟩
    · rw [hd]
      exact ⟨fun _ => hg, fun _ => rfl⟩
  · have hle : math.bytes_to_contain c + objBytes.length ≤ buf.length := by omega
    have he : encodeValue objBytes buf c
        = (.success, writeBytes buf (math.bytes_to_contain c) objBytes,
           math.bits_to_contain (math.bytes_to_contain c) + objBytes.length * 8) := by
      simp only [encodeValue]
      rw [if_neg hg]
    have hd : decodeValue buf c objBytes
        = (.success, readBytes buf (math.bytes_to_contain c) objBytes.length,
           math.bits_to_contain (math.bytes_to_contain c) + objBytes.length * 8) := by
      simp only [decodeValue]
      rw [if_neg hg]
    have hc8 : math.bits_to_contain (math.bytes_to_contain c) + objBytes.length * 8
        = 8 * math.bytes_to_contain c + 8 * objBytes.length := by
      simp only [math.bits_to_contain]
      ring
    have hts : (buf.take (math.bytes_to_contain c)).length = math.bytes_to_contain c := by
      rw [List.length_take]
      omega
    have h2 : (buf.take (math.bytes_to_contain c) ++ objBytes).length
        = math.bytes_to_contain c + objBytes.length := by
      rw [List.length_append, hts]
    refine ⟨math.bytes_to_contain_eq c, ?_, ?_, fun _ => ⟨?_, ?_, ?_, ?_⟩, ?_, ?_, fun _ => ?_⟩
    · rw [he]
      exact ⟨fun h => absurd h (by simp), fun h => absurd h hg⟩
    · rw [he]
      intro h
      exact absurd h (by simp)
    · rw [he]
      exact hc8
    · rw [he]
      exact writeBytes_length hle
    · intro i hi
      rw [he]
      show (writeBytes buf (math.bytes_to_contain c) objBytes).getD
        (math.bytes_to_contain c + i) 0 = objBytes.getD i 0
      unfold writeBytes
      rw [getD_append_left (by rw [h2]; omega),
          getD_append_right (by rw [hts]; omega), hts, Nat.add_sub_cancel_left]
    · intro j hj
      rw [he]
      show (writeBytes buf (math.bytes_to_contain c) objBytes).getD j 0 = buf.getD j 0
      unfold writeBytes
      rcases hj with hj1 | hj2
      · rw [getD_append_left (by rw [h2]; omega),
            getD_append_left (by rw [hts]; omega), getD_take hj1]
      · rw [getD_append_right (by rw [h2]; omega), h2, getD_drop,
            Nat.add_sub_cancel' hj2]
    · rw [hd]
      exact ⟨fun h => absurd h (by simp), fun h => absurd h hg⟩
    · rw [hd]
      intro h
      exact absurd h (by simp)
    · rw [hd, hc8]
      rfl

/-- C5 witness: encoding the two bytes `AB CD` into a three-byte buffer at
cursor 4 starts at byte 1, succeeds, writes exactly those two bytes, leaves
byte 0 alone, and sets the cursor to 24; decode reads the same slice. -/
theorem claim_C5_value_codec_witness :
    math.bytes_to_contain 4 + ([171, 205] : List Nat).length ≤ ([1, 2, 3] : List Nat).length ∧
    ((encodeValue [171, 205] [1, 2, 3] 4).2.2
        = 8 * math.bytes_to_contain 4 + 8 * ([171, 205] : List Nat).length ∧
     (encodeValue [171, 205] [1, 2, 3] 4).2.1.length = ([1, 2, 3] : List Nat).length ∧
     (∀ i, i < ([171, 205] : List Nat).length →
       (encodeValue [171, 205] [1, 2, 3] 4).2.1.getD (math.bytes_to_contain 4 + i) 0
         = ([171, 205] : List Nat).getD i 0) ∧
     (∀ j, j < math.bytes_to_contain 4
         ∨ math.bytes_to_contain 4 + ([171, 205] : List Nat).length ≤ j →
       (encodeValue [171, 205] [1, 2, 3] 4).2.1.getD j 0
         = ([1, 2, 3] : List Nat).getD j 0)) ∧
    (decodeValue [1, 2, 3] 4 [171, 205]
        = (.success, (([1, 2, 3] : List Nat).drop (math.bytes_to_contain 4)).take
            ([171, 205] : List Nat).length,
           8 * math.bytes_to_contain 4 + 8 * ([171, 205] : List Nat).length)) :=
  ⟨by decide,
   (claim_C5_value_codec [171, 205] [1, 2, 3] 4).2.2.2.1 (by decide),
   (claim_C5_value_codec [171, 205] [1, 2, 3] 4).2.2.2.2.2.2 (by decide)⟩

/-- C6: decoding a `ConstBitField<N>` — standalone or inside any field
sequence — returns the caller's stored value bitwise unchanged while
advancing the cursor by exactly N; across a whole recursive decode, every
`ConstBitField` storage cell in the target is preserved verbatim (the
source buffer is read-only throughout). -/
theorem claim_C6_const_decode (n v : Nat) (buf : List Nat) (c : Nat)
    (t : Field) (ts : FieldList) (buf2 buf3 : List Nat) (c2 c3 : Nat) :
    decodeField (.constBitf n v) buf c = (.success, .constBitf n v, c + n) ∧
    Field.constVals (decodeField t buf2 c2).2.1 = Field.constVals t ∧
    FieldList.constValsL (decodeFields ts buf3 c3).2.1 = FieldList.constValsL ts :=
  ⟨rfl, decodeField_constVals t buf2 c2, decodeFields_constVals ts buf3 c3⟩

/-- C7: Packet-level encode/decode fails exactly when the upfront capacity
check `ceil(cursor/8) + size_in_bytes(Packet) > buffer.size()` fails; when
the check passes, the recursive per-field pass itself returns success; and
on failure the destination (buffer for encode, target fields for decode) is
returned byte-for-byte unmodified — failure is atomic. -/
theorem claim_C7_atomic_failure (fs : FieldList) (buf : List Nat) (c : Nat) :
    ((encodePacket fs buf c).1 = .failure
        ↔ math.bytes_to_contain c + FieldList.packetSizeBytes fs > buf.length) ∧
    ((encodePacket fs buf c).1 = .failure → (encodePacket fs buf c).2.1 = buf) ∧
    (math.bytes_to_contain c + FieldList.packetSizeBytes fs ≤ buf.length →
      (encodeFields fs buf (math.bits_to_contain (math.bytes_to_contain c))).1 = .success) ∧
    ((decodePacket fs buf c).1 = .failure
        ↔ math.bytes_to_contain c + FieldList.packetSizeBytes fs > buf.length) ∧
    ((decodePacket fs buf c).1 = .failure → (decodePacket fs buf c).2.1 = fs) ∧
    (math.bytes_to_contain c + FieldList.packetSizeBytes fs ≤ buf.length →
      (decodeFields fs buf (math.bits_to_contain (math.bytes_to_contain c))).1 = .success) := by
  by_cases hg : math.bytes_to_contain c + FieldList.packetSizeBytes fs > buf.length
  · have he : encodePacket fs buf c = (.failure, buf, c) := by
      rw [encodePacket_cases, if_pos hg]
    have hd : decodePacket fs buf c = (.failure, fs, c) := by
      rw [decodePacket_cases, if_pos hg]
    refine ⟨?_, fun _ => by rw [he], fun hle => absurd hle (by omega),
            ?_, fun _ => by rw [hd], fun hle => absurd hle (by omega)⟩
    · rw [he]
      exact ⟨fun _ => hg, fun _ => rfl⟩
    · rw [hd]
      exact ⟨fun _ => hg, fun _ => rfl⟩
  · have hle : math.bytes_to_contain c + FieldList.packetSizeBytes fs ≤ buf.length := by
      omega
    have hES := encodeFields_success fs buf (math.bits_to_contain (math.bytes_to_contain c))
      (accum_le_of_guard hle)
    have hDS := decodeFields_success fs buf (math.bits_to_contain (math.bytes_to_contain c))
      (accum_le_of_guard hle)
    have he : (encodePacket fs buf c).1 = .success := by
      rw [encodePacket_cases, if_neg hg]
    have hd : (decodePacket fs buf c).1 = .success := by
      rw [decodePacket_cases, if_neg hg]
    refine ⟨?_, ?_, fun _ => hES.1, ?_, ?_, fun _ => hDS.1⟩
    · rw [he]
      exact ⟨fun h => absurd h (by simp), fun h => absurd h hg⟩
    · rw [he]
      intro h
      exact absurd h (by simp)
    · rw [hd]
      exact ⟨fun h => absurd h (by simp), fun h => absurd h hg⟩
    · rw [hd]
      intro h
      exact absurd h (by simp)

/-- C7 witness: a two-byte packet in a one-byte buffer fails at the upfront
check and hands the buffer back untouched; the same packet in a two-byte
buffer passes the check and the per-field pass succeeds. -/
theorem claim_C7_atomic_failure_witness :
    ((encodePacket (FieldList.cons (.bitf 9 5) .nil) [7] 0).1 = .failure →
      (encodePacket (FieldList.cons (.bitf 9 5) .nil) [7] 0).2.1 = [7]) ∧
    (math.bytes_to_contain 0
        + FieldList.packetSizeBytes (FieldList.cons (.bitf 9 5) .nil) ≤ ([0, 0] : List Nat).length →
      (encodeFields (FieldList.cons (.bitf 9 5) .nil) [0, 0]
        (math.bits_to_contain (math.bytes_to_contain 0))).1 = .success) ∧
    (encodePacket (FieldList.cons (.bitf 9 5) .nil) [7] 0).2.1 = [7] ∧
    (encodeFields (FieldList.cons (.bitf 9 5) .nil) [0, 0]
      (math.bits_to_contain (math.bytes_to_contain 0))).1 = .success :=
  ⟨(claim_C7_atomic_failure (FieldList.cons (.bitf 9 5) .nil) [7] 0).2.1,
   (claim_C7_atomic_failure (FieldList.cons (.bitf 9 5) .nil) [0, 0] 0).2.2.1,
   (claim_C7_atomic_failure (FieldList.cons (.bitf 9 5) .nil) [7] 0).2.1 (by decide),
   (claim_C7_atomic_failure (FieldList.cons (.bitf 9 5) .nil) [0, 0] 0).2.2.1 (by decide)⟩

/-- C8: `ConstBitField` decode never checks the source buffer: for every
width, stored value, cursor and buffer — including the empty buffer — it
returns success and advances the cursor by N, whereas a `BitField` of any
positive width fails to decode from an empty buffer. -/
theorem claim_C8_const_unguarded (n v c m w : Nat) (buf : List Nat) (hm : 0 < m) :
    decodeField (.constBitf n v) buf c = (.success, .constBitf n v, c + n) ∧
    decodeField (.constBitf n v) [] c = (.success, .constBitf n v, c + n) ∧
    (decodeField (.bitf m w) [] c).1 = .failure := by
  refine ⟨rfl, rfl, ?_⟩
  simp only [decodeField]
  have hg : c + m > math.bits_to_contain ([] : List Nat).length := by
    simp [math.bits_to_contain]
    omega
  rw [if_pos hg]

/-- C8 witness: `ConstBitField<3>` decodes from the empty buffer at cursor
5, advancing to 8; `BitField<3>` fails there. -/
theorem claim_C8_const_unguarded_witness :
    0 < 3 ∧
    (decodeField (.constBitf 3 2) [9] 5 = (.success, .constBitf 3 2, 5 + 3) ∧
     decodeField (.constBitf 3 2) [] 5 = (.success, .constBitf 3 2, 5 + 3) ∧
     (decodeField (.bitf 3 0) [] 5).1 = .failure) :=
  ⟨by decide, claim_C8_const_unguarded 3 2 5 3 0 [9] (by decide)⟩

/-- C9: `Ingress<T>::Get` fails without issuing any `Request` when the
session reports fewer bytes available than `size_in_bytes(T)`; otherwise it
issues exactly one `Request` of `size_in_bytes(T)` bytes with the caller's
timeout over a zero-initialised stack buffer, and the overall result is
success only if both the `Request` and the decode succeed. -/
theorem claim_C9_ingress (session : Inbound) (target : Field) (timeout : Int) :
    (session.inputBytesAvailable < Field.sizeBytes target →
      ingressGet session target timeout = (.failure, target, [])) ∧
    (Field.sizeBytes target ≤ session.inputBytesAvailable →
      (ingressGet session target timeout).2.2 = [(Field.sizeBytes target, timeout)]) ∧
    (session.requestResult = .failure → (ingressGet session target timeout).1 = .failure) ∧
    ((ingressGet session target timeout).1 = .success →
      session.requestResult = .success ∧
      Field.sizeBytes target ≤ session.inputBytesAvailable ∧
      (decodeField target
        ((session.requestBytes ++ List.replicate (Field.sizeBytes target) 0).take
          (Field.sizeBytes target)) 0).1 = .success) := by
  by_cases hav : session.inputBytesAvailable < Field.sizeBytes target
  · have hres : ingressGet session target timeout = (.failure, target, []) := by
      simp only [ingressGet]
      rw [if_pos hav]
    refine ⟨fun _ => hres, fun hle => absurd hle (by omega), fun _ => by rw [hres], ?_⟩
    rw [hres]
    intro h
    exact absurd h (by simp)
  · simp only [ingressGet]
    rw [if_neg hav]
    cases hrr : session.requestResult with
    | failure =>
      simp only [BinaryResult.IsFailure]
      rw [if_pos trivial]
      exact ⟨fun hlt => absurd hlt hav, fun _ => rfl, fun _ => rfl,
             fun h => absurd h (by simp)⟩
    | success =>
      simp only [BinaryResult.IsFailure]
      rw [if_neg (show ¬ (false = true) from fun h => by cases h)]
      refine ⟨fun hlt => absurd hlt hav, fun _ => rfl,
              fun habs => absurd habs (by simp), ?_⟩
      intro hsucc
      refine ⟨trivial, by omega, ?_⟩
      by_cases hr : (decodeField target
          ((session.requestBytes ++ List.replicate (Field.sizeBytes target) 0).take
            (Field.sizeBytes target)) 0).1 = BinaryResult.success
      · exact hr
      · have hsucc2 : (if (decodeField target
            ((session.requestBytes ++ List.replicate (Field.sizeBytes target) 0).take
              (Field.sizeBytes target)) 0).1 = BinaryResult.success
            then BinaryResult.success else BinaryResult.failure) = BinaryResult.success :=
          hsucc
        rw [if_neg hr] at hsucc2
        exact absurd hsucc2 (by simp)

/-- C9 witness: a two-byte aligned target with only one byte available
fails with no `Request`; with two bytes available and a successful session,
exactly one `Request` of two bytes with the caller's timeout is issued. -/
theorem claim_C9_ingress_witness :
    ingressGet ⟨1, .success, [7, 8]⟩ (.aligned [0, 0]) 5 = (.failure, .aligned [0, 0], []) ∧
    (ingressGet ⟨2, .success, [7, 8]⟩ (.aligned [0, 0]) 5).2.2
      = [(Field.sizeBytes (.aligned [0, 0]), 5)] :=
  ⟨(claim_C9_ingress ⟨1, .success, [7, 8]⟩ (.aligned [0, 0]) 5).1 (by decide),
   (claim_C9_ingress ⟨2, .success, [7, 8]⟩ (.aligned [0, 0]) 5).2.1 (by decide)⟩

/-- C10 counterexample: `Egress::Put` zero-clamps the remaining timeout, so
the timeout handed to `Post` is not always strictly positive: with original
timeout 1 µs and 1 µs spent encoding, `Post` receives exactly 0. -/
theorem claim_C10_counterexample :
    (egressPut ⟨1, .success⟩ (.aligned [7]) 1 1).2 = [([7], 0)] ∧
    ¬ ((0 : Int) > 0) := by
  decide

/-- C10 (amended): when `Egress<T>::Put` reaches the `Post` step it passes
`timeout - elapsed` clamped at zero; that value never exceeds the original
timeout (for non-negative elapsed and timeout), is never negative, and is
strictly positive precisely when the elapsed encoding time is strictly
below the original timeout. -/
theorem claim_C10_egress_timeout (session : Outbound) (value : Field)
    (timeout elapsedUs : Int)
    (havail : ¬ session.outputBytesAvailable < Field.sizeBytes value)
    (henc : (encodeField value (List.replicate (Field.sizeBytes value) 0) 0).1 = .success) :
    (egressPut session value timeout elapsedUs).2
      = [((encodeField value (List.replicate (Field.sizeBytes value) 0) 0).2.1,
          if elapsedUs > timeout then 0 else timeout - elapsedUs)] ∧
    (0 ≤ elapsedUs → 0 ≤ timeout →
      (if elapsedUs > timeout then (0 : Int) else timeout - elapsedUs) ≤ timeout) ∧
    0 ≤ (if elapsedUs > timeout then (0 : Int) else timeout - elapsedUs) ∧
    (elapsedUs < timeout →
      0 < (if elapsedUs > timeout then (0 : Int) else timeout - elapsedUs)) := by
  refine ⟨?_, ?_, ?_, ?_⟩
  · simp only [egressPut]
    rw [if_neg havail]
    rcases hres : encodeField value (List.replicate (Field.sizeBytes value) 0) 0
      with ⟨r, enc, cc⟩
    rw [hres] at henc
    simp only at henc
    subst henc
    cases hpr : session.postResult <;> simp
  · intro he ht
    by_cases hgt : elapsedUs > timeout
    · rw [if_pos hgt]
      exact ht
    · rw [if_neg hgt]
      omega
  · by_cases hgt : elapsedUs > timeout
    · rw [if_pos hgt]
    · rw [if_neg hgt]
      omega
  · intro hlt
    rw [if_neg (by omega)]
    omega

/-- C10 witness: one byte available, a one-byte value, timeout 5 µs and
2 µs of encoding: `Post` receives 3. -/
theorem claim_C10_egress_timeout_witness :
    (¬ (Outbound.mk 1 .success).outputBytesAvailable < Field.sizeBytes (.aligned [7])) ∧
    (encodeField (.aligned [7])
        (List.replicate (Field.sizeBytes (.aligned [7])) 0) 0).1 = .success ∧
    ((egressPut ⟨1, .success⟩ (.aligned [7]) 5 2).2
        = [((encodeField (.aligned [7])
              (List.replicate (Field.sizeBytes (.aligned [7])) 0) 0).2.1,
            if (2 : Int) > 5 then 0 else 5 - 2)] ∧
     ((0 : Int) ≤ 2 → (0 : Int) ≤ 5 →
       (if (2 : Int) > 5 then (0 : Int) else 5 - 2) ≤ 5) ∧
     (0 : Int) ≤ (if (2 : Int) > 5 then (0 : Int) else 5 - 2) ∧
     ((2 : Int) < 5 → (0 : Int) < (if (2 : Int) > 5 then (0 : Int) else 5 - 2))) :=
  ⟨by decide, by decide,
   claim_C10_egress_timeout ⟨1, .success⟩ (.aligned [7]) 5 2 (by decide) (by decide)⟩

end ShmitWare
